import Mathlib

/-!
Shallow embedding of the correspondence-analysis core of
`source/blender/editors/mesh/editmesh_utils.c`:

* the mirror correspondence cache
  (`EDBM_verts_mirror_cache_begin_ex`, `EDBM_verts_mirror_get`,
  `EDBM_verts_mirror_get_edge`, `EDBM_verts_mirror_get_face`,
  `EDBM_verts_mirror_apply`), and
* the UV vertex map / element map
  (`BM_uv_vert_map_create`, `BM_uv_element_map_create`) with the island
  segmentation pass.

Machine floats are modelled by exact fractions (type `Frac` below): an
integer numerator over a positive integer denominator, never normalised, so
that every arithmetic operation of the embedding is kernel-computable.  The
theorem `Frac.lt_iff_toRat` ties the ordering to the rational numbers.
External collaborator functions that are not part of the repository source
(the KD-tree spatial index, `compare_v2v2`, `cross_poly_v2`,
`BM_edge_exists`, `BM_face_exists`, `uvedit_uv_select_test`) are modelled
from the specification, as marked in their doc comments.
-/

namespace Blender

/-! ## Exact fraction scalars -/

/-- An exact fraction standing for a C `float` value.  All fractions built
by the embedding keep `0 < den`; fractions are never normalised, so all
operations reduce in the kernel (`Rat`'s arithmetic is `irreducible`). -/
structure Frac where
  num : ℤ
  den : ℤ
deriving DecidableEq, Repr

namespace Frac

instance : Inhabited Frac := ⟨⟨0, 1⟩⟩

/-- Embed an integer as a fraction with denominator one. -/
def ofInt (n : ℤ) : Frac := ⟨n, 1⟩

instance : Add Frac := ⟨fun a b => ⟨a.num * b.den + b.num * a.den, a.den * b.den⟩⟩
instance : Sub Frac := ⟨fun a b => ⟨a.num * b.den - b.num * a.den, a.den * b.den⟩⟩
instance : Mul Frac := ⟨fun a b => ⟨a.num * b.num, a.den * b.den⟩⟩
instance : Neg Frac := ⟨fun a => ⟨-a.num, a.den⟩⟩
instance : OfNat Frac n := ⟨⟨n, 1⟩⟩

/-- Comparison by cross multiplication; correct whenever both denominators
are positive, which holds for every fraction the embedding builds. -/
def lt (a b : Frac) : Prop := a.num * b.den < b.num * a.den

instance : LT Frac := ⟨Frac.lt⟩

instance (a b : Frac) : Decidable (a < b) :=
  inferInstanceAs (Decidable (a.num * b.den < b.num * a.den))

/-- The absolute value (`fabsf`). -/
def fabs (a : Frac) : Frac := ⟨|a.num|, a.den⟩

/-- The rational value a fraction denotes. -/
def toRat (a : Frac) : ℚ := (a.num : ℚ) / (a.den : ℚ)

end Frac

/-! ## Basic geometry -/

/-- A 3D point (`float co[3]` on a `BMVert`). -/
structure Vec3 where
  x : Frac
  y : Frac
  z : Frac
deriving DecidableEq, Repr, Inhabited

/-- The operation `co[axis] *= -1.0f` after `copy_v3_v3`: negate the
coordinate selected by `axis` (0, 1 or 2), keep the other two. -/
def reflectAxis (axis : ℕ) (v : Vec3) : Vec3 :=
  match axis with
  | 0 => ⟨-v.x, v.y, v.z⟩
  | 1 => ⟨v.x, -v.y, v.z⟩
  | _ => ⟨v.x, v.y, -v.z⟩

/-- Modelled from the spec: `len_squared_v3v3` from the math library —
the squared Euclidean distance between two points. -/
def len_squared_v3v3 (a b : Vec3) : Frac :=
  (a.x - b.x) * (a.x - b.x) + (a.y - b.y) * (a.y - b.y) +
    (a.z - b.z) * (a.z - b.z)

/-- A mesh vertex as seen by the mirror cache: a position and the
`BM_ELEM_SELECT` / `BM_ELEM_HIDDEN` flags. -/
structure MVert where
  co : Vec3
  sel : Bool
  hidden : Bool
deriving DecidableEq, Repr, Inhabited

/-! ## Spatial index (external collaborator)

Modelled from the spec: insert `(index, point)` pairs, then
`find_nearest(point)` returns an inserted index whose point is nearest to
the query, or none when empty.  Ties are broken towards the earliest
inserted entry; the counterexamples below avoid ties. -/

/-- Modelled from the spec: `BLI_kdtree_3d_find_nearest` over a list of
inserted `(index, point)` entries — returns the index of an entry at
minimal squared distance from `q` (earliest on ties), or `none`. -/
def kd_find_nearest (entries : List (ℕ × Vec3)) (q : Vec3) : Option ℕ :=
  match entries with
  | [] => none
  | e :: rest =>
      some (rest.foldl
        (fun best p =>
          if len_squared_v3v3 p.2 q < len_squared_v3v3 best.2 q then p else best)
        e).1

/-- The entries inserted into the KD-tree by
`EDBM_verts_mirror_cache_begin_ex`: every vertex index with its position,
skipping hidden vertices when `respecthide` is set. -/
def treeEntries (verts : List MVert) (respecthide : Bool) : List (ℕ × Vec3) :=
  ((List.range verts.length).filter
      (fun i => !(respecthide && (verts.getD i default).hidden))).map
    (fun i => (i, (verts.getD i default).co))

/-! ## Mirror correspondence cache -/

/-- The spatial-match step of the `begin` loop for one candidate vertex
`i`: reflect its position across `axis`, query the KD-tree, and accept the
hit only when its squared distance from the reflected point is below
`maxdist_sq` (strict, as in the source). -/
def mirrorMatch (verts : List MVert) (respecthide : Bool) (axis : ℕ)
    (maxdist_sq : Frac) (i : ℕ) : Option ℕ :=
  let co := reflectAxis axis (verts.getD i default).co
  match kd_find_nearest (treeEntries verts respecthide) co with
  | none => none
  | some i_mirr =>
      if len_squared_v3v3 co (verts.getD i_mirr default).co < maxdist_sq then
        some i_mirr
      else none

/-- One iteration of the vertex loop of `EDBM_verts_mirror_cache_begin_ex`
(lines 1127-1173): skip hidden (when `respecthide`) and unselected (when
`use_select`) vertices; otherwise write the match symmetrically into both
slots when accepted (`use_self` or a distinct vertex), else write `-1`. -/
def mirrorCacheStep (verts : List MVert) (axis : ℕ)
    (use_self use_select respecthide : Bool) (maxdist_sq : Frac)
    (table : List Int) (i : ℕ) : List Int :=
  let v := verts.getD i default
  if respecthide && v.hidden then table
  else if use_select && !v.sel then table
  else
    match mirrorMatch verts respecthide axis maxdist_sq i with
    | some m =>
        if use_self || decide (m ≠ i) then
          (table.set i (Int.ofNat m)).set m (Int.ofNat i)
        else table.set i (-1)
    | none => table.set i (-1)

/-- `EDBM_verts_mirror_cache_begin_ex` with `use_topology = false` (the
topology branch delegates wholesale to the external Topology Matcher).
`table0` is the initial contents of the caller-supplied index buffer /
custom-data layer; the result is the mirror table, `-1` meaning none. -/
def EDBM_verts_mirror_cache_begin_ex (verts : List MVert) (axis : ℕ)
    (use_self use_select respecthide : Bool) (maxdist : Frac)
    (table0 : List Int) : List Int :=
  (List.range verts.length).foldl
    (mirrorCacheStep verts axis use_self use_select respecthide
      (maxdist * maxdist))
    table0

/-- Whether the `begin` loop processes vertex `i` as a source: not
skipped by the hide filter nor by the select filter (lines 1128-1134). -/
def mirrorProcessed (verts : List MVert) (use_select respecthide : Bool)
    (i : ℕ) : Bool :=
  !(respecthide && (verts.getD i default).hidden) &&
    !(use_select && !(verts.getD i default).sel)

/-- A mirror pair `(a, b)` standing in the table is justified by one of
the two writes the loop can make: `a` was processed and matched `b`, or
`b` was processed and matched `a`. -/
def mirrorJustified (verts : List MVert) (use_select respecthide : Bool)
    (axis : ℕ) (maxdist_sq : Frac) (a b : ℕ) : Prop :=
  (mirrorProcessed verts use_select respecthide a = true ∧
      mirrorMatch verts respecthide axis maxdist_sq a = some b) ∨
    (mirrorProcessed verts use_select respecthide b = true ∧
      mirrorMatch verts respecthide axis maxdist_sq b = some a)

/-- The loop invariant of the `begin` pass with `use_self = false`: every
slot is none, or holds a distinct in-range partner whose slot points
back, the pair being justified by a processed match. -/
def mirrorTableOK (verts : List MVert) (use_select respecthide : Bool)
    (axis : ℕ) (maxdist_sq : Frac) (table : List Int) : Prop :=
  table.length = verts.length ∧
    ∀ a, a < verts.length →
      table.getD a (-1) = -1 ∨
        ∃ b, table.getD a (-1) = Int.ofNat b ∧ b < verts.length ∧ b ≠ a ∧
          table.getD b (-1) = Int.ofNat a ∧
          mirrorJustified verts use_select respecthide axis maxdist_sq a b

/-- The index-level content of `EDBM_verts_mirror_get`: the stored slot
must be present and in range `[0, totvert)`, otherwise none. -/
def mirrorGetIdx (table : List Int) (totvert : ℕ) (i : ℕ) : Option ℕ :=
  let m := table.getD i (-1)
  if 0 ≤ m ∧ m < (totvert : Int) then some m.toNat else none

/-- `EDBM_verts_mirror_get` (lines 1203-1221): `slot` is the looked-up
custom-data value (`none` when the layer lookup fails), `vtable` is the
vertex table (`none` when `bm->vtable` is unset).  Returns the mirror
vertex only when the slot holds an in-range index and the table exists. -/
def EDBM_verts_mirror_get (slot : Option Int) (totvert : ℕ)
    (vtable : Option (List MVert)) : Option MVert :=
  match slot with
  | none => none
  | some m =>
      if 0 ≤ m ∧ m < (totvert : Int) then
        match vtable with
        | none => none
        | some vt => some (vt.getD m.toNat default)
      else none

/-! ## Mirror apply -/

/-- The selection flags of a vertex list; `EDBM_verts_mirror_apply` never
modifies them, so its control flow is a function of this list alone. -/
def selsOf (verts : List MVert) : List Bool := verts.map MVert.sel

/-- The guard of one `EDBM_verts_mirror_apply` iteration, which depends
only on the (never modified) selection flags and the mirror table: vertex
`i` is selected as `sel_from`, has an in-range mirror `m`, and `m` is
selected as `sel_to`. -/
def applyWrites (sels : List Bool) (table : List Int) (sel_from sel_to : Bool)
    (i m : ℕ) : Prop :=
  sels.getD i false = sel_from ∧
    mirrorGetIdx table sels.length i = some m ∧ sels.getD m false = sel_to

instance (sels : List Bool) (table : List Int) (sel_from sel_to : Bool)
    (i m : ℕ) : Decidable (applyWrites sels table sel_from sel_to i m) := by
  unfold applyWrites; infer_instance

/-- The position one `apply` iteration writes to, if any: the functional
form of `applyWrites`. -/
def stepTarget (sels : List Bool) (table : List Int)
    (sel_from sel_to : Bool) (i : ℕ) : Option ℕ :=
  if sels.getD i false = sel_from then
    match mirrorGetIdx table sels.length i with
    | some m => if sels.getD m false = sel_to then some m else none
    | none => none
  else none

/-- One iteration of `EDBM_verts_mirror_apply` (lines 1276-1286): when the
guard holds, overwrite the mirror's position with the current source
position, X coordinate negated (`mirr->co[0] *= -1.0f`). -/
def applyStep (n : ℕ) (table : List Int) (sel_from sel_to : Bool)
    (verts : List MVert) (i : ℕ) : List MVert :=
  let v := verts.getD i default
  if v.sel = sel_from then
    match mirrorGetIdx table n i with
    | some m =>
        let mv := verts.getD m default
        if mv.sel = sel_to then
          verts.set m { mv with co := reflectAxis 0 v.co }
        else verts
    | none => verts
  else verts

/-- `EDBM_verts_mirror_apply` (lines 1269-1287): iterate the vertices in
index order, propagating positions to mirrors.  Note the source always
negates coordinate 0, independent of the `axis` given to `begin`. -/
def EDBM_verts_mirror_apply (verts : List MVert) (table : List Int)
    (sel_from sel_to : Bool) : List MVert :=
  (List.range verts.length).foldl
    (applyStep verts.length table sel_from sel_to) verts

/-! ## Mirror queries over edges and faces -/

/-- Modelled from the spec: `BM_edge_exists` — the edge between the two
given vertices when the mesh has one (either orientation), else none. -/
def BM_edge_exists (edges : List (ℕ × ℕ)) (a b : ℕ) : Option (ℕ × ℕ) :=
  edges.find? (fun e => (e.1 == a && e.2 == b) || (e.1 == b && e.2 == a))

/-- Whether `f` is a cyclic rotation of `vs` (the same vertex cycle with
cyclic order preserved). -/
def isCyclicRotation (f vs : List ℕ) : Bool :=
  f.length == vs.length && (List.range f.length).any (fun k => decide (f.rotate k = vs))

/-- Modelled from the spec: `BM_face_exists` — a face over exactly the
given mirrored vertex cycle, cyclic order preserved, else none. -/
def BM_face_exists (faces : List (List ℕ)) (vs : List ℕ) : Option (List ℕ) :=
  faces.find? (fun f => isCyclicRotation f vs)

/-- `EDBM_verts_mirror_get_edge` (lines 1223-1234): mirror both endpoints
(index-level `EDBM_verts_mirror_get`), then look the mirrored edge up. -/
def EDBM_verts_mirror_get_edge (table : List Int) (totvert : ℕ)
    (edges : List (ℕ × ℕ)) (e : ℕ × ℕ) : Option (ℕ × ℕ) :=
  match mirrorGetIdx table totvert e.1 with
  | none => none
  | some m1 =>
      match mirrorGetIdx table totvert e.2 with
      | none => none
      | some m2 => BM_edge_exists edges m1 m2

/-- The corner walk of `EDBM_verts_mirror_get_face`: mirror every corner
vertex in face order, failing as soon as one has no mirror. -/
def collectMirrors (table : List Int) (totvert : ℕ) : List ℕ → Option (List ℕ)
  | [] => some []
  | v :: vs =>
      match mirrorGetIdx table totvert v with
      | none => none
      | some m =>
          match collectMirrors table totvert vs with
          | none => none
          | some ms => some (m :: ms)

/-- `EDBM_verts_mirror_get_face` (lines 1236-1251): mirror every corner
vertex of the face (given as its vertex cycle), then look the mirrored
face up. -/
def EDBM_verts_mirror_get_face (table : List Int) (totvert : ℕ)
    (faces : List (List ℕ)) (fvs : List ℕ) : Option (List ℕ) :=
  match collectMirrors table totvert fvs with
  | none => none
  | some ms => BM_face_exists faces ms

/-! ## UV data model -/

/-- A face corner ("loop"): its mesh vertex, its UV coordinate
(`MLoopUV.uv`) and the result of the external per-corner UV-selection
predicate `uvedit_uv_select_test` (modelled from the spec as a boolean
supplied per corner). -/
structure UVLoop where
  v : ℕ
  uv : Frac × Frac
  uvSel : Bool
deriving DecidableEq, Repr, Inhabited

/-- A face: its `BM_ELEM_SELECT` flag and its ordered corner list. -/
structure UVFace where
  sel : Bool
  loops : List UVLoop
deriving DecidableEq, Repr, Inhabited

/-- Face lookup by index (`BM_face_at_index`). -/
def faceAt (mesh : List UVFace) (f : ℕ) : UVFace := mesh.getD f default

/-- Corner lookup by face index and corner position
(`BM_iter_at_index(..., BM_LOOPS_OF_FACE, ...)`). -/
def loopAt (mesh : List UVFace) (f j : ℕ) : UVLoop :=
  (faceAt mesh f).loops.getD j default

/-- Modelled from the spec: `compare_v2v2` from the math library — both
components differ by strictly less than `limit`. -/
def compare_v2v2 (a b : Frac × Frac) (limit : Frac) : Bool :=
  decide ((a.1 - b.1).fabs < limit) && decide ((a.2 - b.2).fabs < limit)

/-- Modelled from the spec: the fixed UV connect tolerance
(`STD_UV_CONNECT_LIMIT`, 0.0001f in `BKE_mesh_mapping.h`, outside this
repository's sources). -/
def STD_UV_CONNECT_LIMIT : Frac := ⟨1, 10000⟩

/-- Modelled from the spec: `cross_poly_v2` from the math library — the
trapezium-rule signed-area sum of a 2D polygon; only its sign is used. -/
def cross_poly_v2 (vs : List (Frac × Frac)) : Frac :=
  (List.range vs.length).foldl
    (fun acc a =>
      let curr := vs.getD a default
      let prev := vs.getD ((a + vs.length - 1) % vs.length) default
      acc + (curr.1 - prev.1) * (curr.2 + prev.2))
    0

/-- Concatenate a list of lists (membership-transparent replacement for
the nested iteration that fills the corner buffers). -/
def catLists (ls : List (List α)) : List α := ls.foldr (· ++ ·) []

/-! ## UV vertex map (`BM_uv_vert_map_create`) -/

/-- A `UvMapVert` record: owning face index and position within the face.
The source's `separate` flag is represented below by the subgroup nesting
produced by the merge pass (each subgroup's first flat element carries the
flag). -/
structure UvMapVert where
  poly_index : ℕ
  loop_of_poly_index : ℕ
deriving DecidableEq, Repr, Inhabited

/-- The face filter of the vert map (line 553): all faces, or only
selected faces when `use_select`. -/
def vmapFaceOK (use_select : Bool) (f : UVFace) : Bool := !use_select || f.sel

/-- The `totuv` count (lines 552-556): total corners of eligible faces. -/
def vmap_totuv (mesh : List UVFace) (use_select : Bool) : ℕ :=
  ((List.range mesh.length).filter
      (fun f => vmapFaceOK use_select (faceAt mesh f))).foldl
    (fun acc f => acc + (faceAt mesh f).loops.length) 0

/-- All eligible corners in creation order (the order the `buf` array is
filled, lines 577-604). -/
def vmapCorners (mesh : List UVFace) (use_select : Bool) : List UvMapVert :=
  catLists ((List.range mesh.length).map (fun a =>
    if vmapFaceOK use_select (faceAt mesh a) then
      (List.range (faceAt mesh a).loops.length).map (fun i => ⟨a, i⟩)
    else []))

/-- The mesh vertex a map record's corner touches. -/
def vertexOfMapVert (mesh : List UVFace) (c : UvMapVert) : ℕ :=
  (loopAt mesh c.poly_index c.loop_of_poly_index).v

/-- The UV coordinate of a map record's corner. -/
def uvOfMapVert (mesh : List UVFace) (c : UvMapVert) : Frac × Frac :=
  (loopAt mesh c.poly_index c.loop_of_poly_index).uv

/-- The per-vertex linked group before the merge pass: records are
prepended as corners are created, so the list is the reverse of creation
order (line 590-591). -/
def vmapVertList (mesh : List UVFace) (use_select : Bool) (v : ℕ) :
    List UvMapVert :=
  ((vmapCorners mesh use_select).filter
      (fun c => vertexOfMapVert mesh c == v)).reverse

/-- The per-face winding sign array (lines 600-602): for eligible faces
the sign of the UV signed area, `false` (the `calloc` zero) otherwise. -/
def vmapWinding (mesh : List UVFace) (use_select : Bool) (a : ℕ) : Bool :=
  if vmapFaceOK use_select (faceAt mesh a) then
    decide (0 < cross_poly_v2 ((faceAt mesh a).loops.map (fun l => l.uv)))
  else false

/-- The merge criterion of the vert-map pass (lines 634-635): UVs within
the connect tolerance and, when `use_winding`, matching winding signs. -/
def vmapCmp (mesh : List UVFace) (use_winding : Bool) (w : ℕ → Bool)
    (v iterv : UvMapVert) : Bool :=
  compare_v2v2 (uvOfMapVert mesh iterv) (uvOfMapVert mesh v)
      STD_UV_CONNECT_LIMIT &&
    (!use_winding || (w iterv.poly_index == w v.poly_index))

/-- The merge rounds of the per-vertex pass (lines 612-653): pop the head
`v` of the remaining list, move every remaining member matching `v` into
`v`'s new subgroup (each prepended, hence the reverse), flag the subgroup
boundary, and continue on the non-matching rest.  Each subgroup is kept in
its flat stacking order (`matched.reverse ++ seed`) and subgroups are
stacked most-recent-first, exactly as the source's `newvlist`.  The fuel
is always at least the list length, so the zero-fuel branch is dead. -/
def mergeRounds (cmp : α → α → Bool) :
    ℕ → List α → List (List α) → List (List α)
  | _, [], acc => acc
  | 0, _ :: _, acc => acc
  | fuel + 1, v :: rest, acc =>
      mergeRounds cmp fuel (rest.filter (fun w => !cmp v w))
        (((rest.filter (fun w => cmp v w)).reverse ++ [v]) :: acc)

/-- The merge pass on one vertex's group. -/
def mergeSubgroups (cmp : α → α → Bool) (l : List α) : List (List α) :=
  mergeRounds cmp l.length l []

/-- Two members end in the same maximal subgroup of the merge output. -/
def inSameSubgroup (sgs : List (List α)) (a b : α) : Prop :=
  ∃ sg ∈ sgs, a ∈ sg ∧ b ∈ sg

instance [DecidableEq α] (sgs : List (List α)) (a b : α) :
    Decidable (inSameSubgroup sgs a b) := by
  unfold inSameSubgroup; infer_instance

/-- The `UvVertMap` result: the merged subgroup lists per mesh vertex. -/
structure UvVertMap where
  vert : ℕ → List (List UvMapVert)

/-- `BM_uv_vert_map_create` (lines 529-665): `NULL` when no corner is
eligible, otherwise the per-vertex merged groups. -/
def BM_uv_vert_map_create (mesh : List UVFace)
    (use_select use_winding : Bool) : Option UvVertMap :=
  if vmap_totuv mesh use_select = 0 then none
  else
    some ⟨fun v =>
      mergeSubgroups (vmapCmp mesh use_winding (vmapWinding mesh use_select))
        (vmapVertList mesh use_select v)⟩

/-! ## UV element map (`BM_uv_element_map_create`) -/

/-- A `UvElement` record, identified by its owning face index and corner
position (`l` and `loop_of_poly_index` in the source). -/
structure UvElement where
  faceIdx : ℕ
  loopIdx : ℕ
deriving DecidableEq, Repr, Inhabited

/-- The face filter of the element map (line 703). -/
def elemFaceOK (face_selected : Bool) (f : UVFace) : Bool :=
  !face_selected || f.sel

/-- The corner filter of the element map (lines 704-713, 746-748): all
corners, or only UV-selected corners when `uv_selected`. -/
def elemLoopOK (uv_selected : Bool) (l : UVLoop) : Bool := !uv_selected || l.uvSel

/-- The element-map `totuv` count (lines 702-715). -/
def elem_totuv (mesh : List UVFace) (face_selected uv_selected : Bool) : ℕ :=
  ((List.range mesh.length).filter
      (fun f => elemFaceOK face_selected (faceAt mesh f))).foldl
    (fun acc f =>
      acc + ((faceAt mesh f).loops.filter (elemLoopOK uv_selected)).length) 0

/-- The element buffer in creation order (lines 732-770): one element per
eligible corner of each eligible face. -/
def elemBuf (mesh : List UVFace) (face_selected uv_selected : Bool) :
    List UvElement :=
  catLists ((List.range mesh.length).map (fun f =>
    if elemFaceOK face_selected (faceAt mesh f) then
      catLists ((List.range (faceAt mesh f).loops.length).map (fun j =>
        if elemLoopOK uv_selected (loopAt mesh f j) then
          [UvElement.mk f j]
        else []))
    else []))

/-- The corner an element refers to (`element->l`). -/
def elemLoop (mesh : List UVFace) (e : UvElement) : UVLoop :=
  loopAt mesh e.faceIdx e.loopIdx

/-- The per-vertex element list before the merge pass (prepend order,
lines 755-756). -/
def elemVertList (mesh : List UVFace) (face_selected uv_selected : Bool)
    (v : ℕ) : List UvElement :=
  ((elemBuf mesh face_selected uv_selected).filter
      (fun e => (elemLoop mesh e).v == v)).reverse

/-- The element-map winding array (lines 732-768).  When `uv_selected`
skips a corner, the source leaves that `tf_uv` slot unwritten
(indeterminate memory); the model fills it with `(0, 0)`. -/
def elemWinding (mesh : List UVFace) (face_selected uv_selected : Bool)
    (j : ℕ) : Bool :=
  if elemFaceOK face_selected (faceAt mesh j) then
    decide (0 < cross_poly_v2 ((faceAt mesh j).loops.map
      (fun l => if elemLoopOK uv_selected l then l.uv else (0, 0))))
  else false

/-- The merge criterion of the element-map pass (lines 801-807): equal
per-corner UV-selection states, UVs within tolerance, and, when
`use_winding`, matching winding signs. -/
def elemCmp (mesh : List UVFace) (use_winding : Bool) (w : ℕ → Bool)
    (v iterv : UvElement) : Bool :=
  (((elemLoop mesh v).uvSel == (elemLoop mesh iterv).uvSel) &&
      compare_v2v2 (elemLoop mesh iterv).uv (elemLoop mesh v).uv
        STD_UV_CONNECT_LIMIT) &&
    (!use_winding || (w iterv.faceIdx == w v.faceIdx))

/-- The merged per-vertex subgroups of the element map (lines 773-828). -/
def elemSubgroups (mesh : List UVFace)
    (face_selected uv_selected use_winding : Bool) (v : ℕ) :
    List (List UvElement) :=
  mergeSubgroups (elemCmp mesh use_winding
      (elemWinding mesh face_selected uv_selected))
    (elemVertList mesh face_selected uv_selected v)

/-! ## Island segmentation (the `do_islands` pass, lines 834-940)

Only the island assignment itself is modelled (`element->island` and the
`island_number` face array); the `islandbuf`/`map` re-layout that follows
copies the already-assigned island ids into a compacted buffer and does
not change which corner carries which id. -/

/-- The flood-fill state: `ei` is `element->island` (`INVALID_ISLAND`
modelled as `none`), `fi` is the `island_number` face array, `stack` the
explicit face stack. -/
structure IslandState where
  ei : UvElement → Option ℕ
  fi : List (Option ℕ)
  stack : List ℕ

/-- Pointwise update of the element-island assignment. -/
def setIsland (g : UvElement → Option ℕ) (e : UvElement) (n : ℕ) :
    UvElement → Option ℕ :=
  fun x => if x = e then some n else g x

/-- Lines 886-895: for one subgroup member, push its owning face if that
face has no island number yet, marking it with the current island. -/
def pushMember (n : ℕ) (st : IslandState) (e : UvElement) : IslandState :=
  if (st.fi.getD e.faceIdx none) = none then
    { st with
      fi := st.fi.set e.faceIdx (some n),
      stack := e.faceIdx :: st.stack }
  else st

/-- Lines 868-898: walk the flat per-vertex element list, tracking the
current subgroup start (`initelement`), and stop at the first element
owned by face `f` — equivalently, the first subgroup holding such an
element, together with that element. -/
def findFaceElem (sgs : List (List UvElement)) (f : ℕ) :
    Option (List UvElement × UvElement) :=
  match sgs with
  | [] => none
  | sg :: rest =>
      match sg.find? (fun e => e.faceIdx == f) with
      | some e => some (sg, e)
      | none => findFaceElem rest f

/-- Lines 863-899: handle corner `j` of the popped face `f`: skip corners
rejected by the UV-selection filter, otherwise assign the found element to
island `n` and push every unvisited face of its subgroup. -/
def processCorner (vertSub : ℕ → List (List UvElement))
    (uv_selected : Bool) (mesh : List UVFace) (n f : ℕ)
    (st : IslandState) (j : ℕ) : IslandState :=
  let l := loopAt mesh f j
  if uv_selected && !l.uvSel then st
  else
    match findFaceElem (vertSub l.v) f with
    | none => st
    | some p =>
        p.1.foldl (pushMember n) { st with ei := setIsland st.ei p.2 n }

/-- One popped face: handle each of its corners in order. -/
def processFace (vertSub : ℕ → List (List UvElement)) (uv_selected : Bool)
    (mesh : List UVFace) (n f : ℕ) (st : IslandState) : IslandState :=
  (List.range (faceAt mesh f).loops.length).foldl
    (processCorner vertSub uv_selected mesh n f) st

/-- Lines 860-900: the `while (stacksize > 0)` loop.  The fuel compiles
the proved termination measure (stack length plus twice the unvisited
face count); `floodFuel` below always exceeds it, so the zero branch is
dead code. -/
def floodLoop (vertSub : ℕ → List (List UvElement)) (uv_selected : Bool)
    (mesh : List UVFace) (n : ℕ) : ℕ → IslandState → IslandState
  | 0, st => st
  | fuel + 1, st =>
      match st.stack with
      | [] => st
      | f :: rest =>
          floodLoop vertSub uv_selected mesh n fuel
            (processFace vertSub uv_selected mesh n f { st with stack := rest })

/-- Fuel bound sufficient for any flood from a single seeded face. -/
def floodFuel (totface : ℕ) : ℕ := 2 * totface + 2

/-- Lines 853-904: one step of the outer scan over the element buffer:
an element still unassigned opens a new island, seeds its face, floods,
and bumps the island counter. -/
def islandScanStep (vertSub : ℕ → List (List UvElement))
    (uv_selected : Bool) (mesh : List UVFace)
    (p : ℕ × IslandState) (e : UvElement) : ℕ × IslandState :=
  if p.2.ei e = none then
    let st0 : IslandState :=
      ⟨setIsland p.2.ei e p.1, p.2.fi.set e.faceIdx (some p.1), [e.faceIdx]⟩
    (p.1 + 1,
      floodLoop vertSub uv_selected mesh p.1 (floodFuel mesh.length) st0)
  else p

/-- The island assignment the `do_islands` pass leaves on the elements:
`element->island` per element, `none` for elements never created. -/
def islandAssignment (mesh : List UVFace)
    (face_selected uv_selected use_winding : Bool) :
    UvElement → Option ℕ :=
  ((elemBuf mesh face_selected uv_selected).foldl
      (islandScanStep (elemSubgroups mesh face_selected uv_selected use_winding)
        uv_selected mesh)
      (0, ⟨fun _ => none, List.replicate mesh.length none, []⟩)).2.ei

/-- Corner `(f, j)` exists and passes the UV-selection filter. -/
def islandCornerOK (mesh : List UVFace) (uv_selected : Bool) (f j : ℕ) :
    Prop :=
  j < (faceAt mesh f).loops.length ∧
    elemLoopOK uv_selected (loopAt mesh f j) = true

instance (mesh : List UVFace) (uv_selected : Bool) (f j : ℕ) :
    Decidable (islandCornerOK mesh uv_selected f j) := by
  unfold islandCornerOK; infer_instance

/-- Every eligible corner of face `f` carries island `k`. -/
def islandFaceDone (mesh : List UVFace) (uv_selected : Bool)
    (ei : UvElement → Option ℕ) (k f : ℕ) : Prop :=
  ∀ j, islandCornerOK mesh uv_selected f j → ei ⟨f, j⟩ = some k

/-- The flood-fill invariant during island `n`, with `ex` an optional
face temporarily exempt from the stacked-or-done dichotomy (the face
currently being processed): stack faces are marked with `n` and eligible;
every face marked `n` is stacked or fully assigned; faces of earlier
islands are fully assigned; assignments are backed by their face mark and
only cover created elements; face marks are bounded and eligible. -/
def islandInvE (mesh : List UVFace) (face_selected uv_selected : Bool)
    (n : ℕ) (ex : Option ℕ) (st : IslandState) : Prop :=
  st.fi.length = mesh.length ∧
    (∀ f ∈ st.stack, st.fi.getD f none = some n ∧ f < mesh.length ∧
      elemFaceOK face_selected (faceAt mesh f) = true) ∧
    (∀ f, st.fi.getD f none = some n → some f ≠ ex →
      f ∈ st.stack ∨ islandFaceDone mesh uv_selected st.ei n f) ∧
    (∀ f k, st.fi.getD f none = some k → k < n →
      islandFaceDone mesh uv_selected st.ei k f) ∧
    (∀ e k, st.ei e = some k → k ≤ n ∧
      st.fi.getD e.faceIdx none = some k ∧
      e ∈ elemBuf mesh face_selected uv_selected) ∧
    (∀ f k, st.fi.getD f none = some k → k ≤ n ∧ f < mesh.length ∧
      elemFaceOK face_selected (faceAt mesh f) = true)

/-- Bookkeeping facts relating a flood-fill state to a later one during
island `n`: face marks are stable, island-`n` assignments are stable,
assignments never disappear, the face array keeps its length, and the
termination measure does not increase. -/
structure IslandStepOK (n : ℕ) (st st' : IslandState) : Prop where
  stable_fi : ∀ g k, st.fi.getD g none = some k → st'.fi.getD g none = some k
  mono_n : ∀ e, st.ei e = some n → st'.ei e = some n
  mono_some : ∀ e, (st.ei e).isSome = true → (st'.ei e).isSome = true
  len_fi : st'.fi.length = st.fi.length
  meas : st'.stack.length + st'.fi.count none ≤
    st.stack.length + st.fi.count none
  meas_cn : st'.fi.count none ≤ st.fi.count none

/-- The between-islands invariant of the outer scan: empty stack, every
face mark below the island counter and fully assigned, every assignment
below the counter, backed by its face mark, and on a created element. -/
def islandOuterInv (mesh : List UVFace) (face_selected uv_selected : Bool)
    (p : ℕ × IslandState) : Prop :=
  p.2.stack = [] ∧ p.2.fi.length = mesh.length ∧
    (∀ f k, p.2.fi.getD f none = some k → k < p.1 ∧ f < mesh.length ∧
      elemFaceOK face_selected (faceAt mesh f) = true ∧
      islandFaceDone mesh uv_selected p.2.ei k f) ∧
    (∀ e k, p.2.ei e = some k → k < p.1 ∧
      p.2.fi.getD e.faceIdx none = some k ∧
      e ∈ elemBuf mesh face_selected uv_selected)

/-- The `UvElementMap` result: merged subgroups per vertex and, when
islands were requested, the island id per element. -/
structure UvElementMap where
  vert : ℕ → List (List UvElement)
  island : UvElement → Option ℕ

/-- `BM_uv_element_map_create` (lines 673-945): `NULL` when no corner is
eligible, otherwise the merged groups plus the optional island pass. -/
def BM_uv_element_map_create (mesh : List UVFace)
    (face_selected uv_selected use_winding do_islands : Bool) :
    Option UvElementMap :=
  if elem_totuv mesh face_selected uv_selected = 0 then none
  else
    some ⟨elemSubgroups mesh face_selected uv_selected use_winding,
      if do_islands then
        islandAssignment mesh face_selected uv_selected use_winding
      else fun _ => none⟩

/-! # Theorems -/

/-- On positive denominators the cross-multiplication order agrees with
the rational order, so `Frac` faithfully models exact comparison. -/
theorem Frac.lt_iff_toRat (a b : Frac) (ha : 0 < a.den) (hb : 0 < b.den) :
    a < b ↔ a.toRat < b.toRat := by
  have ha' : (0 : ℚ) < (a.den : ℚ) := by exact_mod_cast ha
  have hb' : (0 : ℚ) < (b.den : ℚ) := by exact_mod_cast hb
  show a.num * b.den < b.num * a.den ↔ _
  rw [Frac.toRat, Frac.toRat, div_lt_div_iff₀ ha' hb']
  constructor
  · intro h; exact_mod_cast h
  · intro h; exact_mod_cast h

/-! ## C6: empty-input sentinel -/

/-- With the selection filter active and no face selected, every face
fails the vert-map face filter. -/
theorem vmapFaceOK_false (mesh : List UVFace)
    (hsel : ∀ f ∈ mesh, f.sel = false) (f : ℕ) (hf : f < mesh.length) :
    vmapFaceOK true (faceAt mesh f) = false := by
  have hmem : faceAt mesh f ∈ mesh := by
    rw [faceAt, List.getD_eq_getElem mesh default hf]
    exact List.getElem_mem hf
  simp [vmapFaceOK, hsel _ hmem]

/-- With the selection filter active and no face selected, every face
fails the element-map face filter. -/
theorem elemFaceOK_false (mesh : List UVFace)
    (hsel : ∀ f ∈ mesh, f.sel = false) (f : ℕ) (hf : f < mesh.length) :
    elemFaceOK true (faceAt mesh f) = false := by
  have hmem : faceAt mesh f ∈ mesh := by
    rw [faceAt, List.getD_eq_getElem mesh default hf]
    exact List.getElem_mem hf
  simp [elemFaceOK, hsel _ hmem]

/-- C6: when the selection filter is in force and no face is selected, no
corner is eligible, and both `BM_uv_vert_map_create` and
`BM_uv_element_map_create` return the explicit empty sentinel (`NULL`),
for any winding / UV-selection / island options. -/
theorem c6_empty_input_sentinel (mesh : List UVFace)
    (uv_selected use_winding do_islands : Bool)
    (hsel : ∀ f ∈ mesh, f.sel = false) :
    BM_uv_vert_map_create mesh true use_winding = none ∧
      BM_uv_element_map_create mesh true uv_selected use_winding do_islands =
        none := by
  have h1 : (List.range mesh.length).filter
      (fun f => vmapFaceOK true (faceAt mesh f)) = [] := by
    rw [List.filter_eq_nil_iff]
    intro f hf
    have := vmapFaceOK_false mesh hsel f (List.mem_range.mp hf)
    simp [this]
  have h2 : (List.range mesh.length).filter
      (fun f => elemFaceOK true (faceAt mesh f)) = [] := by
    rw [List.filter_eq_nil_iff]
    intro f hf
    have := elemFaceOK_false mesh hsel f (List.mem_range.mp hf)
    simp [this]
  constructor
  · rw [BM_uv_vert_map_create]
    have : vmap_totuv mesh true = 0 := by rw [vmap_totuv, h1]; rfl
    simp [this]
  · rw [BM_uv_element_map_create]
    have : elem_totuv mesh true uv_selected = 0 := by
      rw [elem_totuv, h2]; rfl
    simp [this]

/-- Witness for C6 at a concrete one-face unselected mesh. -/
theorem c6_witness :
    BM_uv_vert_map_create
        [UVFace.mk false [UVLoop.mk 0 (⟨0,1⟩, ⟨0,1⟩) true]] true false = none ∧
      BM_uv_element_map_create
        [UVFace.mk false [UVLoop.mk 0 (⟨0,1⟩, ⟨0,1⟩) true]] true false false
          true = none :=
  c6_empty_input_sentinel
    [UVFace.mk false [UVLoop.mk 0 (⟨0,1⟩, ⟨0,1⟩) true]] false false true
    (by intro f hf; simp at hf; rw [hf])

/-! ## C10: bounds-checked mirror lookup -/

/-- C10: `EDBM_verts_mirror_get` returns a vertex only when the stored
slot holds an index within `[0, totvert)`; a missing slot, a negative
index, or an index at or beyond the vertex count all give `none`. -/
theorem c10_mirror_get_bounds (slot : Option Int) (totvert : ℕ)
    (vtable : Option (List MVert)) :
    ((EDBM_verts_mirror_get slot totvert vtable).isSome = true →
        ∃ m, slot = some m ∧ 0 ≤ m ∧ m < (totvert : Int)) ∧
      (slot = none → EDBM_verts_mirror_get slot totvert vtable = none) ∧
      (∀ m, slot = some m → m < 0 →
        EDBM_verts_mirror_get slot totvert vtable = none) ∧
      (∀ m, slot = some m → (totvert : Int) ≤ m →
        EDBM_verts_mirror_get slot totvert vtable = none) := by
  refine ⟨?_, ?_, ?_, ?_⟩
  · intro h
    cases hs : slot with
    | none => rw [hs] at h; simp [EDBM_verts_mirror_get] at h
    | some m =>
        refine ⟨m, rfl, ?_⟩
        rw [hs] at h
        by_contra hc
        have hor : ¬(0 ≤ m ∧ m < (totvert : Int)) := by omega
        simp [EDBM_verts_mirror_get, if_neg hor] at h
  · intro h; rw [h]; rfl
  · intro m hm hneg
    rw [hm]
    have hor : ¬(0 ≤ m ∧ m < (totvert : Int)) := by omega
    simp [EDBM_verts_mirror_get, if_neg hor]
  · intro m hm hge
    rw [hm]
    have hor : ¬(0 ≤ m ∧ m < (totvert : Int)) := by omega
    simp [EDBM_verts_mirror_get, if_neg hor]

/-- Witness for C10 at concrete inputs: a stored index at the vertex
count yields `none`. -/
theorem c10_witness :
    EDBM_verts_mirror_get (some 3) 3 (some [default, default, default]) =
      none :=
  (c10_mirror_get_bounds (some 3) 3
    (some [default, default, default])).2.2.2 3 rfl (by decide)

/-! ## C8: mirror edge and face queries -/

/-- The corner walk mirrors every vertex in order, or fails: its result is
exactly a positionwise mirror of the input cycle. -/
theorem collectMirrors_eq_some_iff (table : List Int) (totvert : ℕ)
    (vs ms : List ℕ) :
    collectMirrors table totvert vs = some ms ↔
      List.Forall₂ (fun v m => mirrorGetIdx table totvert v = some m) vs ms := by
  induction vs generalizing ms with
  | nil =>
      constructor
      · intro h
        rw [collectMirrors] at h
        cases h
        exact List.Forall₂.nil
      · intro h; cases h; rfl
  | cons v vs ih =>
      constructor
      · intro h
        rw [collectMirrors] at h
        cases hm : mirrorGetIdx table totvert v with
        | none => rw [hm] at h; cases h
        | some m =>
            rw [hm] at h
            cases hc : collectMirrors table totvert vs with
            | none => rw [hc] at h; cases h
            | some ms' =>
                rw [hc] at h
                cases h
                exact List.Forall₂.cons hm ((ih ms').mp hc)
      · intro h
        cases h with
        | cons hm hrest =>
            rw [collectMirrors, hm, (ih _).mpr hrest]

/-- C8: the mirror edge query succeeds exactly when both endpoints have
mirrors and an edge between the two mirrored vertices exists (either
orientation); the mirror face query succeeds exactly when every corner
vertex mirrors and a face over exactly the mirrored vertex cycle exists,
cyclic order preserved. -/
theorem c8_mirror_edge_face (table : List Int) (totvert : ℕ)
    (edges : List (ℕ × ℕ)) (faces : List (List ℕ)) (e : ℕ × ℕ)
    (fvs : List ℕ) :
    ((EDBM_verts_mirror_get_edge table totvert edges e).isSome = true ↔
        ∃ m1 m2, mirrorGetIdx table totvert e.1 = some m1 ∧
          mirrorGetIdx table totvert e.2 = some m2 ∧
          ∃ ed ∈ edges, (ed.1 = m1 ∧ ed.2 = m2) ∨ (ed.1 = m2 ∧ ed.2 = m1)) ∧
      ((EDBM_verts_mirror_get_face table totvert faces fvs).isSome = true ↔
        ∃ ms, List.Forall₂
            (fun v m => mirrorGetIdx table totvert v = some m) fvs ms ∧
          ∃ fc ∈ faces, isCyclicRotation fc ms = true) := by
  constructor
  · rw [EDBM_verts_mirror_get_edge]
    cases h1 : mirrorGetIdx table totvert e.1 with
    | none => simp
    | some m1 =>
        cases h2 : mirrorGetIdx table totvert e.2 with
        | none => simp
        | some m2 =>
            simp only [Option.some.injEq]
            rw [BM_edge_exists, List.find?_isSome]
            constructor
            · rintro ⟨ed, hmem, hp⟩
              refine ⟨m1, m2, rfl, rfl, ed, hmem, ?_⟩
              simp only [Bool.or_eq_true, Bool.and_eq_true, beq_iff_eq] at hp
              exact hp
            · rintro ⟨m1', m2', hm1, hm2, ed, hmem, hp⟩
              cases hm1; cases hm2
              refine ⟨ed, hmem, ?_⟩
              simp only [Bool.or_eq_true, Bool.and_eq_true, beq_iff_eq]
              exact hp
  · cases hc : collectMirrors table totvert fvs with
    | none =>
        simp only [EDBM_verts_mirror_get_face, hc, Option.isSome_none,
          Bool.false_eq_true, false_iff]
        rintro ⟨ms, hf, -⟩
        rw [← collectMirrors_eq_some_iff] at hf
        rw [hc] at hf
        cases hf
    | some ms =>
        simp only [EDBM_verts_mirror_get_face, hc]
        rw [BM_face_exists, List.find?_isSome]
        constructor
        · rintro ⟨fc, hmem, hp⟩
          exact ⟨ms, (collectMirrors_eq_some_iff _ _ _ _).mp hc, fc, hmem, hp⟩
        · rintro ⟨ms', hf, fc, hmem, hp⟩
          rw [← collectMirrors_eq_some_iff, hc] at hf
          cases hf
          exact ⟨fc, hmem, hp⟩

/-! ## List helpers -/

/-- Reading a set list away from the set position. -/
theorem getD_set_ne {l : List α} {i j : ℕ} (a d : α) (h : i ≠ j) :
    (l.set i a).getD j d = l.getD j d := by
  rw [List.getD_eq_getElem?_getD, List.getD_eq_getElem?_getD,
    List.getElem?_set_ne h]

/-- Reading a set list at an in-range set position. -/
theorem getD_set_self {l : List α} {i : ℕ} (a d : α) (h : i < l.length) :
    (l.set i a).getD i d = a := by
  rw [List.getD_eq_getElem?_getD, List.getElem?_set_self h]
  rfl

/-- Setting a slot to the value it already holds changes nothing. -/
theorem set_getD_self {l : List α} {i : ℕ} (d : α) :
    l.set i (l.getD i d) = l := by
  by_cases h : i < l.length
  · apply List.ext_getElem (by simp)
    intro j h1 h2
    rw [List.getElem_set]
    split
    · next heq =>
        subst heq
        rw [List.getD_eq_getElem?_getD, List.getElem?_eq_getElem h]
        rfl
    · rfl
  · exact List.set_eq_of_length_le (Nat.le_of_not_lt h)

/-- A fold that at each step keeps either the accumulator or the current
element ends at the initial accumulator or at a list member. -/
theorem foldl_pick_mem (q : Vec3) :
    ∀ (rest : List (ℕ × Vec3)) (acc : ℕ × Vec3),
      (rest.foldl (fun best p =>
          if len_squared_v3v3 p.2 q < len_squared_v3v3 best.2 q then p
          else best) acc) = acc ∨
        (rest.foldl (fun best p =>
          if len_squared_v3v3 p.2 q < len_squared_v3v3 best.2 q then p
          else best) acc) ∈ rest := by
  intro rest
  induction rest with
  | nil => intro acc; exact Or.inl rfl
  | cons r rs ih =>
      intro acc
      rw [List.foldl_cons]
      by_cases hlt : len_squared_v3v3 r.2 q < len_squared_v3v3 acc.2 q
      · rw [if_pos hlt]
        rcases ih r with h1 | h1
        · refine Or.inr ?_
          rw [h1]
          exact List.mem_cons_self _ _
        · exact Or.inr (List.mem_cons_of_mem _ h1)
      · rw [if_neg hlt]
        rcases ih acc with h1 | h1
        · exact Or.inl h1
        · exact Or.inr (List.mem_cons_of_mem _ h1)

/-- A nearest-neighbour result is always one of the inserted indices. -/
theorem kd_find_nearest_mem (entries : List (ℕ × Vec3)) (q : Vec3) (j : ℕ)
    (h : kd_find_nearest entries q = some j) :
    ∃ p ∈ entries, p.1 = j := by
  match entries with
  | [] => cases h
  | e :: rest =>
      rw [kd_find_nearest] at h
      have hj := Option.some.inj h
      rcases foldl_pick_mem q rest e with h1 | h1
      · exact ⟨e, List.mem_cons_self _ _, by rw [← hj, h1]⟩
      · exact ⟨_, List.mem_cons_of_mem _ h1, hj⟩

/-! ## C1: what `apply` reflects across -/

/-- C1 counterexample: `begin` is given axis 1 (Y) and pairs the two
vertices `(1,2,0)` (selected) and `(1,-2,0)` (unselected); the claim
predicts the mirror ends at the source reflected across Y, `(1,-2,0)`,
but `EDBM_verts_mirror_apply` negates coordinate X and stores `(-1,2,0)`. -/
theorem c1_counterexample :
    EDBM_verts_mirror_cache_begin_ex
        [⟨⟨⟨1,1⟩, ⟨2,1⟩, ⟨0,1⟩⟩, true, false⟩,
          ⟨⟨⟨1,1⟩, ⟨-2,1⟩, ⟨0,1⟩⟩, false, false⟩]
        1 false false false ⟨10,1⟩ [-1, -1] = [1, 0] ∧
      EDBM_verts_mirror_apply
          [⟨⟨⟨1,1⟩, ⟨2,1⟩, ⟨0,1⟩⟩, true, false⟩,
            ⟨⟨⟨1,1⟩, ⟨-2,1⟩, ⟨0,1⟩⟩, false, false⟩]
          [1, 0] true false =
        [⟨⟨⟨1,1⟩, ⟨2,1⟩, ⟨0,1⟩⟩, true, false⟩,
          ⟨⟨⟨-1,1⟩, ⟨2,1⟩, ⟨0,1⟩⟩, false, false⟩] ∧
      ((EDBM_verts_mirror_apply
          [⟨⟨⟨1,1⟩, ⟨2,1⟩, ⟨0,1⟩⟩, true, false⟩,
            ⟨⟨⟨1,1⟩, ⟨-2,1⟩, ⟨0,1⟩⟩, false, false⟩]
          [1, 0] true false).getD 1 default).co ≠
        reflectAxis 1 (⟨⟨1,1⟩, ⟨2,1⟩, ⟨0,1⟩⟩ : Vec3) := by
  refine ⟨by decide, by decide, by decide⟩

/-! ## C3: which entries are forced to none -/

/-- C3 counterexample: with `use_select` set, the unselected vertex 1 is
skipped as a source but is chosen as the mirror of the selected vertex 0,
so its table entry ends at `0`, not at none (`-1`). -/
theorem c3_counterexample :
    EDBM_verts_mirror_cache_begin_ex
        [⟨⟨⟨1,1⟩, ⟨0,1⟩, ⟨0,1⟩⟩, true, false⟩,
          ⟨⟨⟨-1,1⟩, ⟨0,1⟩, ⟨0,1⟩⟩, false, false⟩]
        0 false true false ⟨10,1⟩ [-1, -1] = [1, 0] ∧
      ([⟨⟨⟨1,1⟩, ⟨0,1⟩, ⟨0,1⟩⟩, true, false⟩,
          (⟨⟨⟨-1,1⟩, ⟨0,1⟩, ⟨0,1⟩⟩, false, false⟩ : MVert)].getD 1
            default).sel = false ∧
      (EDBM_verts_mirror_cache_begin_ex
          [⟨⟨⟨1,1⟩, ⟨0,1⟩, ⟨0,1⟩⟩, true, false⟩,
            ⟨⟨⟨-1,1⟩, ⟨0,1⟩, ⟨0,1⟩⟩, false, false⟩]
          0 false true false ⟨10,1⟩ [-1, -1]).getD 1 (-1) ≠ -1 := by
  refine ⟨by decide, by decide, by decide⟩

/-- A tree entry index is never a hidden vertex when `respecthide`. -/
theorem treeEntries_not_hidden (verts : List MVert) (j : ℕ)
    (h : ∃ p ∈ treeEntries verts true, p.1 = j) :
    (verts.getD j default).hidden = false := by
  rcases h with ⟨p, hp, hj⟩
  rw [treeEntries] at hp
  rcases List.mem_map.mp hp with ⟨k, hk, hke⟩
  have hkj : k = j := by rw [← hj, ← hke]
  have := List.of_mem_filter hk
  rw [hkj] at this
  simpa using this

/-- One `begin` iteration never touches a hidden vertex's slot when
`respecthide` is set: hidden sources are skipped, and hidden vertices are
excluded from the spatial index so they are never matched. -/
theorem mirrorCacheStep_hidden_untouched (verts : List MVert) (axis : ℕ)
    (use_self use_select : Bool) (maxdist_sq : Frac) (table : List Int)
    (k i : ℕ) (hh : (verts.getD i default).hidden = true) :
    (mirrorCacheStep verts axis use_self use_select true maxdist_sq table
        k).getD i (-1) = table.getD i (-1) := by
  rw [mirrorCacheStep]
  simp only [Bool.true_and]
  by_cases hk : (verts.getD k default).hidden
  · rw [if_pos hk]
  · rw [if_neg hk]
    have hki : k ≠ i := by
      intro he; rw [he] at hk; exact hk hh
    by_cases hs : use_select && !(verts.getD k default).sel
    · rw [if_pos hs]
    · rw [if_neg hs]
      cases hm : mirrorMatch verts true axis maxdist_sq k with
      | none => exact getD_set_ne _ _ hki
      | some m =>
          have hmi : m ≠ i := by
            intro he
            rw [mirrorMatch] at hm
            cases hkd : kd_find_nearest (treeEntries verts true)
                (reflectAxis axis (verts.getD k default).co) with
            | none => simp only [hkd] at hm; cases hm
            | some j =>
                simp only [hkd] at hm
                have hjm : j = m := by
                  by_cases hd : len_squared_v3v3
                      (reflectAxis axis (verts.getD k default).co)
                      (verts.getD j default).co < maxdist_sq
                  · rw [if_pos hd] at hm; exact Option.some.inj hm
                  · rw [if_neg hd] at hm; cases hm
                have := treeEntries_not_hidden verts j
                  (kd_find_nearest_mem _ _ _ hkd)
                rw [hjm, he, hh] at this
                cases this
          show (if (use_self || decide (m ≠ k)) = true then
              (table.set k (Int.ofNat m)).set m (Int.ofNat k)
            else table.set k (-1)).getD i (-1) = table.getD i (-1)
          by_cases hu : (use_self || decide (m ≠ k)) = true
          · rw [if_pos hu, getD_set_ne _ _ hmi, getD_set_ne _ _ hki]
          · rw [if_neg hu]; exact getD_set_ne _ _ hki

/-- C3 amended: with `respecthide` set, a hidden vertex's mirror-table
slot is never written by `EDBM_verts_mirror_cache_begin_ex` at all — it
keeps whatever the table held before (so it is none exactly when the
table started as none); unselected vertices, by contrast, are only
skipped as sources and may still receive the index of a selected vertex
that picked them as its mirror (see the counterexample). -/
theorem c3_amended_hidden_untouched (verts : List MVert) (axis : ℕ)
    (use_self use_select : Bool) (maxdist : Frac) (table0 : List Int)
    (i : ℕ) (hh : (verts.getD i default).hidden = true) :
    (EDBM_verts_mirror_cache_begin_ex verts axis use_self use_select true
        maxdist table0).getD i (-1) = table0.getD i (-1) := by
  rw [EDBM_verts_mirror_cache_begin_ex]
  generalize List.range verts.length = ll
  induction ll generalizing table0 with
  | nil => rfl
  | cons k rest ih =>
      rw [List.foldl_cons, ih]
      exact mirrorCacheStep_hidden_untouched verts axis use_self use_select
        _ table0 k i hh

/-- Witness for C3's amended statement: a single hidden vertex whose slot
holds 7 before `begin` still holds 7 after it. -/
theorem c3_witness :
    (EDBM_verts_mirror_cache_begin_ex
        [⟨⟨⟨1,1⟩, ⟨0,1⟩, ⟨0,1⟩⟩, true, true⟩] 0 false false true ⟨10,1⟩
        [7]).getD 0 (-1) = [(7 : Int)].getD 0 (-1) :=
  c3_amended_hidden_untouched
    [⟨⟨⟨1,1⟩, ⟨0,1⟩, ⟨0,1⟩⟩, true, true⟩] 0 false false ⟨10,1⟩ [7] 0
    (by decide)

/-! ## Apply machinery (for C1 amended and C7) -/

/-- Selection flags read through `selsOf` agree with direct reads (the
default vertex is unselected). -/
theorem selsOf_getD (vs : List MVert) (j : ℕ) :
    (selsOf vs).getD j false = (vs.getD j default).sel := by
  rw [selsOf, List.getD_eq_getElem?_getD, List.getD_eq_getElem?_getD,
    List.getElem?_map]
  cases vs[j]? with
  | none => rfl
  | some v => rfl

/-- Hidden flags read through the map agree with direct reads. -/
theorem hiddensOf_getD (vs : List MVert) (j : ℕ) :
    (vs.map MVert.hidden).getD j false = (vs.getD j default).hidden := by
  rw [List.getD_eq_getElem?_getD, List.getD_eq_getElem?_getD,
    List.getElem?_map]
  cases vs[j]? with
  | none => rfl
  | some v => rfl

/-- Lists of equal length agreeing at every defaulted read are equal. -/
theorem ext_of_getD (p q : List α) (d : α) (hl : p.length = q.length)
    (h : ∀ j, p.getD j d = q.getD j d) : p = q := by
  apply List.ext_getElem hl
  intro j h1 h2
  have := h j
  rwa [List.getD_eq_getElem p d h1, List.getD_eq_getElem q d h2] at this

/-- A stored mirror index accepted by the bounds check is in range. -/
theorem mirrorGetIdx_lt (table : List Int) (n i m : ℕ)
    (h : mirrorGetIdx table n i = some m) : m < n := by
  rw [mirrorGetIdx] at h
  by_cases hc : 0 ≤ table.getD i (-1) ∧ table.getD i (-1) < (n : Int)
  · rw [if_pos hc] at h
    have := Option.some.inj h
    omega
  · rw [if_neg hc] at h; cases h

/-- `stepTarget` is the functional form of the `applyWrites` guard. -/
theorem stepTarget_eq_some_iff (sels : List Bool) (table : List Int)
    (sel_from sel_to : Bool) (i m : ℕ) :
    stepTarget sels table sel_from sel_to i = some m ↔
      applyWrites sels table sel_from sel_to i m := by
  rw [stepTarget, applyWrites]
  by_cases h1 : sels.getD i false = sel_from
  · rw [if_pos h1]
    cases hg : mirrorGetIdx table sels.length i with
    | none => simp
    | some m' =>
        by_cases h3 : sels.getD m' false = sel_to
        · simp only [if_pos h3]
          constructor
          · intro h; cases h; exact ⟨h1, rfl, h3⟩
          · rintro ⟨-, hg', -⟩; exact hg'
        · simp only [if_neg h3]
          constructor
          · intro h; cases h
          · rintro ⟨-, hg', h3'⟩
            obtain rfl : m' = m := Option.some.inj hg'
            exact absurd h3' h3
  · rw [if_neg h1]
    constructor
    · intro h; cases h
    · rintro ⟨h1', -, -⟩; exact absurd h1' h1

/-- One `apply` iteration, written through `stepTarget`: either a no-op,
or one position overwritten with the source position X-negated (selection
and hidden flags of the target are untouched). -/
theorem applyStep_eq_target (n : ℕ) (table : List Int)
    (sel_from sel_to : Bool) (vs : List MVert) (i : ℕ)
    (hn : n = vs.length) :
    applyStep n table sel_from sel_to vs i =
      match stepTarget (selsOf vs) table sel_from sel_to i with
      | some m =>
          vs.set m ⟨reflectAxis 0 ((vs.getD i default).co),
            (vs.getD m default).sel, (vs.getD m default).hidden⟩
      | none => vs := by
  rw [applyStep, stepTarget, selsOf_getD]
  have hlen : (selsOf vs).length = vs.length := List.length_map _ _
  rw [hlen, ← hn]
  by_cases h1 : (vs.getD i default).sel = sel_from
  · rw [if_pos h1, if_pos h1]
    cases hg : mirrorGetIdx table n i with
    | none => rfl
    | some m =>
        simp only
        rw [selsOf_getD]
        by_cases h3 : (vs.getD m default).sel = sel_to
        · rw [if_pos h3, if_pos h3]
        · rw [if_neg h3, if_neg h3]
  · rw [if_neg h1, if_neg h1]

/-- Overwriting a position's coordinates only does not change the
selection flags. -/
theorem selsOf_set_co (vs : List MVert) (m : ℕ) (c : Vec3) :
    selsOf (vs.set m ⟨c, (vs.getD m default).sel,
      (vs.getD m default).hidden⟩) = selsOf vs := by
  rw [selsOf, List.map_set]
  show (selsOf vs).set m ((vs.getD m default).sel) = selsOf vs
  rw [← selsOf_getD]
  exact set_getD_self _

/-- Overwriting a position's coordinates only does not change the hidden
flags. -/
theorem hiddensOf_set_co (vs : List MVert) (m : ℕ) (c : Vec3) :
    (vs.set m ⟨c, (vs.getD m default).sel,
      (vs.getD m default).hidden⟩).map MVert.hidden =
      vs.map MVert.hidden := by
  rw [List.map_set]
  show (vs.map MVert.hidden).set m ((vs.getD m default).hidden) = _
  rw [← hiddensOf_getD]
  exact set_getD_self _

/-- The whole `apply` fold keeps the selection flags. -/
theorem applyFold_selsOf (n : ℕ) (table : List Int) (sel_from sel_to : Bool) :
    ∀ (ll : List ℕ) (vs : List MVert), n = vs.length →
      selsOf (ll.foldl (applyStep n table sel_from sel_to) vs) = selsOf vs
  | [], vs, _ => rfl
  | i :: rest, vs, hn => by
      rw [List.foldl_cons, applyStep_eq_target n table sel_from sel_to vs i hn]
      cases ht : stepTarget (selsOf vs) table sel_from sel_to i with
      | none => exact applyFold_selsOf n table sel_from sel_to rest vs hn
      | some m =>
          rw [applyFold_selsOf n table sel_from sel_to rest _
              (by rw [List.length_set]; exact hn)]
          exact selsOf_set_co vs m _

/-- The whole `apply` fold keeps the hidden flags. -/
theorem applyFold_hiddens (n : ℕ) (table : List Int) (sel_from sel_to : Bool) :
    ∀ (ll : List ℕ) (vs : List MVert), n = vs.length →
      (ll.foldl (applyStep n table sel_from sel_to) vs).map MVert.hidden =
        vs.map MVert.hidden
  | [], vs, _ => rfl
  | i :: rest, vs, hn => by
      rw [List.foldl_cons, applyStep_eq_target n table sel_from sel_to vs i hn]
      cases ht : stepTarget (selsOf vs) table sel_from sel_to i with
      | none => exact applyFold_hiddens n table sel_from sel_to rest vs hn
      | some m =>
          rw [applyFold_hiddens n table sel_from sel_to rest _
              (by rw [List.length_set]; exact hn)]
          exact hiddensOf_set_co vs m _

/-- The whole `apply` fold keeps the vertex count. -/
theorem applyFold_length (n : ℕ) (table : List Int) (sel_from sel_to : Bool) :
    ∀ (ll : List ℕ) (vs : List MVert), n = vs.length →
      (ll.foldl (applyStep n table sel_from sel_to) vs).length = vs.length
  | [], vs, _ => rfl
  | i :: rest, vs, hn => by
      rw [List.foldl_cons, applyStep_eq_target n table sel_from sel_to vs i hn]
      cases ht : stepTarget (selsOf vs) table sel_from sel_to i with
      | none => exact applyFold_length n table sel_from sel_to rest vs hn
      | some m =>
          rw [applyFold_length n table sel_from sel_to rest _
              (by rw [List.length_set]; exact hn), List.length_set]

/-- Positions no iteration writes to are left untouched by the fold. -/
theorem applyFold_untouched (n : ℕ) (table : List Int)
    (sel_from sel_to : Bool) :
    ∀ (ll : List ℕ) (vs : List MVert) (j : ℕ), n = vs.length →
      (∀ i ∈ ll, ∀ m, applyWrites (selsOf vs) table sel_from sel_to i m →
        m ≠ j) →
      (ll.foldl (applyStep n table sel_from sel_to) vs).getD j default =
        vs.getD j default
  | [], vs, j, _, _ => rfl
  | i :: rest, vs, j, hn, hno => by
      rw [List.foldl_cons, applyStep_eq_target n table sel_from sel_to vs i hn]
      cases ht : stepTarget (selsOf vs) table sel_from sel_to i with
      | none =>
          exact applyFold_untouched n table sel_from sel_to rest vs j hn
            (fun i' hi' m hm =>
              hno i' (List.mem_cons_of_mem _ hi') m hm)
      | some m =>
          have hw := (stepTarget_eq_some_iff _ _ _ _ _ _).mp ht
          have hmj : m ≠ j := hno i (List.mem_cons_self _ _) m hw
          rw [applyFold_untouched n table sel_from sel_to rest _ j
              (by rw [List.length_set]; exact hn)
              (fun i' hi' m' hm' => by
                rw [selsOf_set_co] at hm'
                exact hno i' (List.mem_cons_of_mem _ hi') m' hm')]
          exact getD_set_ne _ _ hmj

/-- Two states that agree on every source position and on every position
no iteration writes to, and share selection and hidden flags, are driven
to the same final state by the fold. -/
theorem applyFold_congr (n : ℕ) (table : List Int) (sel_from sel_to : Bool) :
    ∀ (ll : List ℕ) (p q : List MVert),
      p.length = q.length →
      selsOf p = selsOf q →
      p.map MVert.hidden = q.map MVert.hidden →
      n = p.length →
      (∀ j, (p.getD j default).sel = sel_from →
        p.getD j default = q.getD j default) →
      (∀ j, (∀ i ∈ ll, ∀ m,
          applyWrites (selsOf p) table sel_from sel_to i m → m ≠ j) →
        p.getD j default = q.getD j default) →
      ll.foldl (applyStep n table sel_from sel_to) p =
        ll.foldl (applyStep n table sel_from sel_to) q
  | [], p, q, hl, _, _, _, _, hunw =>
      ext_of_getD p q default hl (fun j => hunw j (fun i hi => absurd hi
        (List.not_mem_nil i)))
  | i :: rest, p, q, hl, hsel, hhid, hn, hsrc, hunw => by
      rw [List.foldl_cons, List.foldl_cons,
        applyStep_eq_target n table sel_from sel_to p i hn,
        applyStep_eq_target n table sel_from sel_to q i (by rw [hn, hl]),
        ← hsel]
      cases ht : stepTarget (selsOf p) table sel_from sel_to i with
      | none =>
          exact applyFold_congr n table sel_from sel_to rest p q hl hsel hhid
            hn hsrc
            (fun j hj => hunw j (fun i' hi' m hm => by
              rcases List.mem_cons.mp hi' with h | h
              · subst h
                rw [← stepTarget_eq_some_iff] at hm
                rw [ht] at hm
                cases hm
              · exact hj i' h m hm))
      | some m =>
          dsimp only
          have hw := (stepTarget_eq_some_iff _ _ _ _ _ _).mp ht
          have hm_lt : m < p.length := by
            have := mirrorGetIdx_lt table (selsOf p).length i m hw.2.1
            rwa [selsOf, List.length_map] at this
          have hsrc_i : p.getD i default = q.getD i default := by
            apply hsrc
            rw [← selsOf_getD]
            exact hw.1
          have hrec : (⟨reflectAxis 0 ((p.getD i default).co),
              (p.getD m default).sel, (p.getD m default).hidden⟩ : MVert) =
              ⟨reflectAxis 0 ((q.getD i default).co),
                (q.getD m default).sel, (q.getD m default).hidden⟩ := by
            rw [hsrc_i]
            have h1 : (p.getD m default).sel = (q.getD m default).sel := by
              rw [← selsOf_getD, ← selsOf_getD, hsel]
            have h2 : (p.getD m default).hidden =
                (q.getD m default).hidden := by
              rw [← hiddensOf_getD, ← hiddensOf_getD, hhid]
            rw [h1, h2]
          refine applyFold_congr n table sel_from sel_to rest _ _ ?_ ?_ ?_ ?_
            ?_ ?_
          · rw [List.length_set, List.length_set, hl]
          · rw [selsOf_set_co, selsOf_set_co]; exact hsel
          · rw [hiddensOf_set_co, hiddensOf_set_co]; exact hhid
          · rw [List.length_set]; exact hn
          · intro j hj
            by_cases hjm : j = m
            · subst hjm
              rw [getD_set_self _ _ hm_lt,
                getD_set_self _ _ (by rw [← hl]; exact hm_lt)]
              exact hrec
            · rw [getD_set_ne _ _ (fun h => hjm h.symm)] at hj ⊢
              rw [getD_set_ne _ _ (fun h => hjm h.symm)]
              exact hsrc j hj
          · intro j hj
            rw [selsOf_set_co] at hj
            by_cases hjm : j = m
            · subst hjm
              rw [getD_set_self _ _ hm_lt,
                getD_set_self _ _ (by rw [← hl]; exact hm_lt)]
              exact hrec
            · rw [getD_set_ne _ _ (fun h => hjm h.symm),
                getD_set_ne _ _ (fun h => hjm h.symm)]
              apply hunw j
              intro i' hi' m' hm'
              rcases List.mem_cons.mp hi' with h | h
              · subst h
                rw [← stepTarget_eq_some_iff, ht] at hm'
                have hmm : m = m' := Option.some.inj hm'
                subst hmm
                exact fun hc => hjm hc.symm
              · exact hj i' h m' hm'

/-! ## C7: applying twice equals applying once -/

/-- C7: with `select_from = true` and `select_to = false`, running
`EDBM_verts_mirror_apply` a second time, with the mesh and the mirror
table untouched in between, changes nothing: every write reads a selected
source, selected vertices are never written (targets are unselected), so
the second pass rewrites exactly the values the first pass wrote. -/
theorem c7_apply_idempotent (verts : List MVert) (table : List Int) :
    EDBM_verts_mirror_apply (EDBM_verts_mirror_apply verts table true false)
        table true false =
      EDBM_verts_mirror_apply verts table true false := by
  have hlen : (EDBM_verts_mirror_apply verts table true false).length =
      verts.length := by
    rw [EDBM_verts_mirror_apply]
    exact applyFold_length verts.length table true false _ verts rfl
  have hsel : selsOf (EDBM_verts_mirror_apply verts table true false) =
      selsOf verts := by
    rw [EDBM_verts_mirror_apply]
    exact applyFold_selsOf verts.length table true false _ verts rfl
  have hhid : (EDBM_verts_mirror_apply verts table true false).map
      MVert.hidden = verts.map MVert.hidden := by
    rw [EDBM_verts_mirror_apply]
    exact applyFold_hiddens verts.length table true false _ verts rfl
  have huntouched : ∀ j,
      (∀ i ∈ List.range verts.length, ∀ m,
        applyWrites (selsOf verts) table true false i m → m ≠ j) →
      (EDBM_verts_mirror_apply verts table true false).getD j default =
        verts.getD j default := by
    intro j hj
    rw [EDBM_verts_mirror_apply]
    exact applyFold_untouched verts.length table true false _ verts j rfl hj
  conv_lhs => rw [EDBM_verts_mirror_apply, hlen]
  have := applyFold_congr verts.length table true false
    (List.range verts.length)
    (EDBM_verts_mirror_apply verts table true false) verts hlen hsel hhid
    hlen.symm
    (fun j hj => by
      apply huntouched
      intro i hi m hw
      intro hmj
      have h1 : (selsOf verts).getD m false = false := hw.2.2
      have h2 : (selsOf verts).getD j false = true := by
        rw [← hsel, selsOf_getD]
        exact hj
      rw [hmj, h2] at h1
      cases h1)
    (fun j hj => by
      apply huntouched
      intro i hi m hw
      apply hj i hi m
      rwa [hsel])
  rw [this, EDBM_verts_mirror_apply]

/-! ## C1 amended: the reflection axis of `apply` -/

/-- The fold writes a unique source's X-negated position into `m` when
`i` is the only iteration targeting `m` and no iteration targets `i`. -/
theorem applyFold_unique_writer (n : ℕ) (table : List Int)
    (sel_from sel_to : Bool) (i m : ℕ) :
    ∀ (ll : List ℕ) (vs : List MVert) (c : Vec3),
      n = vs.length →
      applyWrites (selsOf vs) table sel_from sel_to i m →
      (∀ ix ∈ ll, ∀ mx, applyWrites (selsOf vs) table sel_from sel_to ix mx →
        (mx = m → ix = i) ∧ mx ≠ i) →
      (vs.getD i default).co = c →
      (i ∈ ll ∨ (vs.getD m default).co = reflectAxis 0 c) →
      ((ll.foldl (applyStep n table sel_from sel_to) vs).getD m
        default).co = reflectAxis 0 c
  | [], vs, c, _, _, _, _, hpos => by
      rcases hpos with h | h
      · exact absurd h (List.not_mem_nil i)
      · exact h
  | ix :: rest, vs, c, hn, hw, hws, hc, hpos => by
      rw [List.foldl_cons, applyStep_eq_target n table sel_from sel_to vs ix hn]
      cases ht : stepTarget (selsOf vs) table sel_from sel_to ix with
      | none =>
          refine applyFold_unique_writer n table sel_from sel_to i m rest vs c
            hn hw (fun ix' hix' => hws ix' (List.mem_cons_of_mem _ hix')) hc ?_
          rcases hpos with h | h
          · rcases List.mem_cons.mp h with h1 | h1
            · subst h1
              rw [← stepTarget_eq_some_iff, ht] at hw
              cases hw
            · exact Or.inl h1
          · exact Or.inr h
      | some mx =>
          dsimp only
          have hwx := (stepTarget_eq_some_iff _ _ _ _ _ _).mp ht
          have h1 := hws ix (List.mem_cons_self _ _) mx hwx
          have hmx_lt : mx < vs.length := by
            have := mirrorGetIdx_lt table (selsOf vs).length ix mx hwx.2.1
            rwa [selsOf, List.length_map] at this
          have hsel_pres := selsOf_set_co vs mx
            (reflectAxis 0 ((vs.getD ix default).co))
          have hgi : (vs.set mx ⟨reflectAxis 0 ((vs.getD ix default).co),
              (vs.getD mx default).sel, (vs.getD mx default).hidden⟩).getD i
              default = vs.getD i default :=
            getD_set_ne _ _ h1.2
          by_cases hixi : ix = i
          · subst hixi
            have hmxm : mx = m := by
              rw [← stepTarget_eq_some_iff] at hw
              rw [ht] at hw
              exact Option.some.inj hw
            subst hmxm
            refine applyFold_unique_writer n table sel_from sel_to ix mx rest _
              c (by rw [List.length_set]; exact hn) (by rwa [hsel_pres])
              (fun ix' hix' mx' hw' => by
                rw [hsel_pres] at hw'
                exact hws ix' (List.mem_cons_of_mem _ hix') mx' hw')
              (by rw [hgi]; exact hc) ?_
            refine Or.inr ?_
            rw [getD_set_self _ _ hmx_lt]
            rw [hc]
          · have hmxm : mx ≠ m := fun he => hixi (h1.1 he)
            refine applyFold_unique_writer n table sel_from sel_to i m rest _
              c (by rw [List.length_set]; exact hn) (by rwa [hsel_pres])
              (fun ix' hix' mx' hw' => by
                rw [hsel_pres] at hw'
                exact hws ix' (List.mem_cons_of_mem _ hix') mx' hw')
              (by rw [hgi]; exact hc) ?_
            rcases hpos with h | h
            · rcases List.mem_cons.mp h with h2 | h2
              · exact absurd h2.symm hixi
              · exact Or.inl h2
            · refine Or.inr ?_
              rw [getD_set_ne _ _ hmxm]
              exact h

/-- C1 amended: `apply` does overwrite each mirror with its source's
position, but the reflection is always across the X axis (coordinate 0),
regardless of the axis `begin` was called with; stated here for a mirror
written by exactly one source, with the source itself never written (the
last-writer-wins refinement when several sources share one mirror). -/
theorem c1_amended_apply_reflects_x (verts : List MVert) (table : List Int)
    (sel_from sel_to : Bool) (i m : ℕ)
    (hw : applyWrites (selsOf verts) table sel_from sel_to i m)
    (huniq : ∀ ix ∈ List.range verts.length,
      ∀ mx ∈ List.range verts.length,
      applyWrites (selsOf verts) table sel_from sel_to ix mx →
        (mx = m → ix = i) ∧ mx ≠ i)
    (hi : i < verts.length) :
    ((EDBM_verts_mirror_apply verts table sel_from sel_to).getD m
      default).co = reflectAxis 0 ((verts.getD i default).co) := by
  rw [EDBM_verts_mirror_apply]
  refine applyFold_unique_writer verts.length table sel_from sel_to i m
    (List.range verts.length) verts ((verts.getD i default).co) rfl hw
    ?_ rfl (Or.inl (List.mem_range.mpr hi))
  intro ix hix mx hwx
  have hmx_lt : mx < verts.length := by
    have := mirrorGetIdx_lt table (selsOf verts).length ix mx hwx.2.1
    rwa [selsOf, List.length_map] at this
  exact huniq ix hix mx (List.mem_range.mpr hmx_lt) hwx

/-- Witness for C1's amended statement: begin over axis 1 pairs the two
vertices; apply writes the X-negated source position into the mirror. -/
theorem c1_witness :
    ((EDBM_verts_mirror_apply
        [⟨⟨⟨1,1⟩, ⟨2,1⟩, ⟨0,1⟩⟩, true, false⟩,
          ⟨⟨⟨1,1⟩, ⟨-2,1⟩, ⟨0,1⟩⟩, false, false⟩]
        [1, 0] true false).getD 1 default).co =
      reflectAxis 0
        (([⟨⟨⟨1,1⟩, ⟨2,1⟩, ⟨0,1⟩⟩, true, false⟩,
          (⟨⟨⟨1,1⟩, ⟨-2,1⟩, ⟨0,1⟩⟩, false, false⟩ : MVert)].getD 0
            default).co) :=
  c1_amended_apply_reflects_x
    [⟨⟨⟨1,1⟩, ⟨2,1⟩, ⟨0,1⟩⟩, true, false⟩,
      ⟨⟨⟨1,1⟩, ⟨-2,1⟩, ⟨0,1⟩⟩, false, false⟩]
    [1, 0] true false 0 1 (by decide) (by decide) (by decide)

/-! ## C2: symmetry of the mirror table -/

/-- C2 counterexample: three selected vertices whose nearest-mirror
matches chain instead of pairing. Vertex 0 matches 1 and writes the pair
`0 ↔ 1`; vertex 1 then matches 2 and overwrites its own slot, leaving
`0 → 1` but `1 → 2`: the table is not symmetric although `use_self` is
false and `1 ≠ 0`. -/
theorem c2_counterexample :
    EDBM_verts_mirror_cache_begin_ex
        [⟨⟨⟨20,1⟩, ⟨0,1⟩, ⟨0,1⟩⟩, true, false⟩,
          ⟨⟨⟨-20,1⟩, ⟨2,1⟩, ⟨0,1⟩⟩, true, false⟩,
          ⟨⟨⟨20,1⟩, ⟨3,1⟩, ⟨0,1⟩⟩, true, false⟩]
        0 false false false ⟨100,1⟩ [-1, -1, -1] = [1, 2, 1] ∧
      (EDBM_verts_mirror_cache_begin_ex
          [⟨⟨⟨20,1⟩, ⟨0,1⟩, ⟨0,1⟩⟩, true, false⟩,
            ⟨⟨⟨-20,1⟩, ⟨2,1⟩, ⟨0,1⟩⟩, true, false⟩,
            ⟨⟨⟨20,1⟩, ⟨3,1⟩, ⟨0,1⟩⟩, true, false⟩]
          0 false false false ⟨100,1⟩ [-1, -1, -1]).getD 0 (-1) = 1 ∧
      (EDBM_verts_mirror_cache_begin_ex
          [⟨⟨⟨20,1⟩, ⟨0,1⟩, ⟨0,1⟩⟩, true, false⟩,
            ⟨⟨⟨-20,1⟩, ⟨2,1⟩, ⟨0,1⟩⟩, true, false⟩,
            ⟨⟨⟨20,1⟩, ⟨3,1⟩, ⟨0,1⟩⟩, true, false⟩]
          0 false false false ⟨100,1⟩ [-1, -1, -1]).getD 1 (-1) ≠ 0 := by
  refine ⟨by decide, by decide, by decide⟩

/-- A spatial match is always an index inserted into the tree, hence in
range. -/
theorem mirrorMatch_lt (verts : List MVert) (respecthide : Bool) (axis : ℕ)
    (maxdist_sq : Frac) (i b : ℕ)
    (h : mirrorMatch verts respecthide axis maxdist_sq i = some b) :
    b < verts.length := by
  rw [mirrorMatch] at h
  cases hkd : kd_find_nearest (treeEntries verts respecthide)
      (reflectAxis axis (verts.getD i default).co) with
  | none => simp only [hkd] at h; cases h
  | some j =>
      simp only [hkd] at h
      have hjb : j = b := by
        by_cases hd : len_squared_v3v3
            (reflectAxis axis (verts.getD i default).co)
            (verts.getD j default).co < maxdist_sq
        · rw [if_pos hd] at h; exact Option.some.inj h
        · rw [if_neg hd] at h; cases h
      subst hjb
      rcases kd_find_nearest_mem _ _ _ hkd with ⟨p, hp, hpj⟩
      rw [treeEntries] at hp
      rcases List.mem_map.mp hp with ⟨k, hk, hke⟩
      have : k ∈ List.range verts.length := List.mem_filter.mp hk |>.1
      rw [← hpj, ← hke]
      exact List.mem_range.mp this

/-- One `begin` iteration with `use_self = false` preserves the table
invariant, provided matches between processed vertices are mutual and no
two distinct processed vertices match the same target. -/
theorem mirrorStep_preserves (verts : List MVert) (axis : ℕ)
    (use_select respecthide : Bool) (maxdist_sq : Frac)
    (H1 : ∀ a, a < verts.length →
      mirrorProcessed verts use_select respecthide a = true →
      ∀ b, mirrorMatch verts respecthide axis maxdist_sq a = some b →
        mirrorProcessed verts use_select respecthide b = true →
        mirrorMatch verts respecthide axis maxdist_sq b = some a)
    (H2 : ∀ a b c, a < verts.length → b < verts.length →
      mirrorProcessed verts use_select respecthide a = true →
      mirrorProcessed verts use_select respecthide b = true →
      mirrorMatch verts respecthide axis maxdist_sq a = some c →
      mirrorMatch verts respecthide axis maxdist_sq b = some c → a = b)
    (k : ℕ) (hk : k < verts.length) (table : List Int)
    (hok : mirrorTableOK verts use_select respecthide axis maxdist_sq table) :
    mirrorTableOK verts use_select respecthide axis maxdist_sq
      (mirrorCacheStep verts axis false use_select respecthide maxdist_sq
        table k) := by
  obtain ⟨hlen, hinv⟩ := hok
  rw [mirrorCacheStep]
  by_cases hg1 : (respecthide && (verts.getD k default).hidden) = true
  · rw [if_pos hg1]; exact ⟨hlen, hinv⟩
  · rw [if_neg hg1]
    by_cases hg2 : (use_select && !(verts.getD k default).sel) = true
    · rw [if_pos hg2]; exact ⟨hlen, hinv⟩
    · rw [if_neg hg2]
      have hproc : mirrorProcessed verts use_select respecthide k = true := by
        rw [mirrorProcessed, Bool.and_eq_true, Bool.not_eq_true',
          Bool.not_eq_true']
        exact ⟨Bool.eq_false_iff.mpr (fun h => hg1 h),
          Bool.eq_false_iff.mpr (fun h => hg2 h)⟩
      cases hm : mirrorMatch verts respecthide axis maxdist_sq k with
      | none =>
          dsimp only
          refine ⟨by rw [List.length_set]; exact hlen, ?_⟩
          intro a ha
          by_cases hak : a = k
          · subst hak
            left
            exact getD_set_self _ _ (by rw [hlen]; exact hk)
          · rw [getD_set_ne _ _ (fun h => hak h.symm)]
            rcases hinv a ha with h | ⟨b, hab, hbn, hba, hback, hj⟩
            · exact Or.inl h
            · have hbk : b ≠ k := by
                intro he
                subst he
                rcases hj with ⟨hpa, hma⟩ | ⟨-, hmb⟩
                · have := H1 a ha hpa b hma hproc
                  rw [hm] at this
                  cases this
                · rw [hm] at hmb
                  cases hmb
              exact Or.inr ⟨b, hab, hbn, hba,
                by rw [getD_set_ne _ _ (fun h => hbk h.symm)]; exact hback,
                hj⟩
      | some m =>
          dsimp only
          by_cases hmk : m = k
          · subst hmk
            rw [if_neg (by simp)]
            refine ⟨by rw [List.length_set]; exact hlen, ?_⟩
            intro a ha
            by_cases hak : a = m
            · subst hak
              left
              exact getD_set_self _ _ (by rw [hlen]; exact hk)
            · rw [getD_set_ne _ _ (fun h => hak h.symm)]
              rcases hinv a ha with h | ⟨b, hab, hbn, hba, hback, hj⟩
              · exact Or.inl h
              · have hbk : b ≠ m := by
                  intro he
                  subst he
                  rcases hj with ⟨hpa, hma⟩ | ⟨-, hmb⟩
                  · exact hak (H2 a b b ha hbn hpa hproc hma hm)
                  · rw [hm] at hmb
                    exact hak (Option.some.inj hmb).symm
                exact Or.inr ⟨b, hab, hbn, hba,
                  by rw [getD_set_ne _ _ (fun h => hbk h.symm)]; exact hback,
                  hj⟩
          · rw [if_pos (by simp [hmk])]
            have hmn : m < verts.length :=
              mirrorMatch_lt verts respecthide axis maxdist_sq k m hm
            refine ⟨by rw [List.length_set, List.length_set]; exact hlen, ?_⟩
            intro a ha
            by_cases hak : a = k
            · subst hak
              refine Or.inr ⟨m, ?_, hmn, hmk, ?_, Or.inl ⟨hproc, hm⟩⟩
              · rw [getD_set_ne _ _ hmk,
                  getD_set_self _ _ (by rw [hlen]; exact hk)]
              · rw [getD_set_self _ _
                  (by rw [List.length_set, hlen]; exact hmn)]
            · by_cases ham : a = m
              · subst ham
                refine Or.inr ⟨k, ?_, hk, fun h => hmk h.symm, ?_,
                  Or.inr ⟨hproc, hm⟩⟩
                · rw [getD_set_self _ _
                    (by rw [List.length_set, hlen]; exact hmn)]
                · rw [getD_set_ne _ _ (fun h => hmk h),
                    getD_set_self _ _ (by rw [hlen]; exact hk)]
              · rw [getD_set_ne _ _ (fun h => ham h.symm),
                  getD_set_ne _ _ (fun h => hak h.symm)]
                rcases hinv a ha with h | ⟨b, hab, hbn, hba, hback, hj⟩
                · exact Or.inl h
                · have hbk : b ≠ k := by
                    intro he
                    subst he
                    rcases hj with ⟨hpa, hma⟩ | ⟨-, hmb⟩
                    · have := H1 a ha hpa b hma hproc
                      rw [hm] at this
                      exact ham (Option.some.inj this).symm
                    · rw [hm] at hmb
                      exact ham (Option.some.inj hmb).symm
                  have hbm : b ≠ m := by
                    intro he
                    subst he
                    rcases hj with ⟨hpa, hma⟩ | ⟨hpb, hmb⟩
                    · exact hak (H2 a k b ha hk hpa hproc hma hm)
                    · have := H1 k hk hproc b hm hpb
                      rw [hmb] at this
                      exact hak (Option.some.inj this)
                  exact Or.inr ⟨b, hab, hbn, hba,
                    by rw [getD_set_ne _ _ (fun h => hbm h.symm),
                      getD_set_ne _ _ (fun h => hbk h.symm)]; exact hback,
                    hj⟩

/-- The all-none table satisfies the invariant. -/
theorem mirrorTableOK_replicate (verts : List MVert)
    (use_select respecthide : Bool) (axis : ℕ) (maxdist_sq : Frac) :
    mirrorTableOK verts use_select respecthide axis maxdist_sq
      (List.replicate verts.length (-1)) := by
  refine ⟨List.length_replicate _ _, ?_⟩
  intro a ha
  left
  rw [List.getD_eq_getElem?_getD, List.getElem?_replicate, if_pos ha]
  rfl

/-- The whole `begin` fold preserves the invariant. -/
theorem mirrorFold_preserves (verts : List MVert) (axis : ℕ)
    (use_select respecthide : Bool) (maxdist_sq : Frac)
    (H1 : ∀ a, a < verts.length →
      mirrorProcessed verts use_select respecthide a = true →
      ∀ b, mirrorMatch verts respecthide axis maxdist_sq a = some b →
        mirrorProcessed verts use_select respecthide b = true →
        mirrorMatch verts respecthide axis maxdist_sq b = some a)
    (H2 : ∀ a b c, a < verts.length → b < verts.length →
      mirrorProcessed verts use_select respecthide a = true →
      mirrorProcessed verts use_select respecthide b = true →
      mirrorMatch verts respecthide axis maxdist_sq a = some c →
      mirrorMatch verts respecthide axis maxdist_sq b = some c → a = b) :
    ∀ (ll : List ℕ) (table : List Int), (∀ a ∈ ll, a < verts.length) →
      mirrorTableOK verts use_select respecthide axis maxdist_sq table →
      mirrorTableOK verts use_select respecthide axis maxdist_sq
        (ll.foldl (mirrorCacheStep verts axis false use_select respecthide
          maxdist_sq) table)
  | [], table, _, hok => hok
  | k :: rest, table, hll, hok => by
      rw [List.foldl_cons]
      exact mirrorFold_preserves verts axis use_select respecthide maxdist_sq
        H1 H2 rest _ (fun a ha => hll a (List.mem_cons_of_mem _ ha))
        (mirrorStep_preserves verts axis use_select respecthide maxdist_sq
          H1 H2 k (hll k (List.mem_cons_self _ _)) table hok)

/-- C2 amended: starting from an all-none table and with `use_self`
false, the built mirror table is symmetric provided the spatial matching
is consistent — every match between two processed vertices is mutual, and
no two distinct processed vertices match the same target (both hold on an
exactly mirror-symmetric mesh).  Without that, a later vertex's write can
overwrite one half of an earlier pair (see the counterexample). -/
theorem c2_amended_table_symmetric (verts : List MVert) (axis : ℕ)
    (use_select respecthide : Bool) (maxdist : Frac)
    (H1 : ∀ a ∈ List.range verts.length,
      mirrorProcessed verts use_select respecthide a = true →
      ∀ b ∈ List.range verts.length,
        mirrorMatch verts respecthide axis (maxdist * maxdist) a = some b →
        mirrorProcessed verts use_select respecthide b = true →
        mirrorMatch verts respecthide axis (maxdist * maxdist) b = some a)
    (H2 : ∀ a ∈ List.range verts.length, ∀ b ∈ List.range verts.length,
      ∀ c ∈ List.range verts.length,
      mirrorProcessed verts use_select respecthide a = true →
      mirrorProcessed verts use_select respecthide b = true →
      mirrorMatch verts respecthide axis (maxdist * maxdist) a = some c →
      mirrorMatch verts respecthide axis (maxdist * maxdist) b = some c →
      a = b)
    (v j : ℕ) (_hj : j ≠ v)
    (hv : (EDBM_verts_mirror_cache_begin_ex verts axis false use_select
        respecthide maxdist
        (List.replicate verts.length (-1))).getD v (-1) = Int.ofNat j) :
    (EDBM_verts_mirror_cache_begin_ex verts axis false use_select
        respecthide maxdist
        (List.replicate verts.length (-1))).getD j (-1) = Int.ofNat v := by
  have hok : mirrorTableOK verts use_select respecthide axis
      (maxdist * maxdist)
      (EDBM_verts_mirror_cache_begin_ex verts axis false use_select
        respecthide maxdist (List.replicate verts.length (-1))) := by
    rw [EDBM_verts_mirror_cache_begin_ex]
    refine mirrorFold_preserves verts axis use_select respecthide
      (maxdist * maxdist) ?_ ?_ (List.range verts.length)
      (List.replicate verts.length (-1))
      (fun a ha => List.mem_range.mp ha)
      (mirrorTableOK_replicate verts use_select respecthide axis
        (maxdist * maxdist))
    · intro a ha hpa b hmb hpb
      exact H1 a (List.mem_range.mpr ha) hpa b
        (List.mem_range.mpr
          (mirrorMatch_lt verts respecthide axis (maxdist * maxdist) a b hmb))
        hmb hpb
    · intro a b c ha hb hpa hpb hma hmb
      exact H2 a (List.mem_range.mpr ha) b (List.mem_range.mpr hb) c
        (List.mem_range.mpr
          (mirrorMatch_lt verts respecthide axis (maxdist * maxdist) a c hma))
        hpa hpb hma hmb
  obtain ⟨hlen, hinv⟩ := hok
  by_cases hvn : v < verts.length
  · rcases hinv v hvn with h | ⟨b, hab, hbn, hba, hback, -⟩
    · rw [hv] at h
      cases h
    · rw [hv] at hab
      have : j = b := by
        have := Int.ofNat.inj hab
        omega
      subst this
      exact hback
  · exfalso
    have : (EDBM_verts_mirror_cache_begin_ex verts axis false use_select
        respecthide maxdist (List.replicate verts.length (-1))).getD v (-1) =
        -1 := by
      rw [List.getD_eq_getElem?_getD, List.getElem?_eq_none]
      · rfl
      · rw [hlen]; omega
    rw [hv] at this
    cases this

/-- Witness for C2's amended statement: two selected vertices exactly
mirroring each other across X; the table pairs them both ways. -/
theorem c2_witness :
    (EDBM_verts_mirror_cache_begin_ex
        [⟨⟨⟨1,1⟩, ⟨0,1⟩, ⟨0,1⟩⟩, true, false⟩,
          ⟨⟨⟨-1,1⟩, ⟨0,1⟩, ⟨0,1⟩⟩, true, false⟩]
        0 false false false ⟨10,1⟩ (List.replicate 2 (-1))).getD 1 (-1) =
      Int.ofNat 0 :=
  c2_amended_table_symmetric
    [⟨⟨⟨1,1⟩, ⟨0,1⟩, ⟨0,1⟩⟩, true, false⟩,
      ⟨⟨⟨-1,1⟩, ⟨0,1⟩, ⟨0,1⟩⟩, true, false⟩]
    0 false false ⟨10,1⟩ (by decide) (by decide) 0 1 (by decide) (by decide)

/-! ## Merge-pass structure (for C4 and C9) -/

/-- Every subgroup the merge rounds emit (beyond those already in the
accumulator) is a seed together with the members that matched it: the
popped head `s` plus the then-remaining members `w` with `cmp s w`. -/
theorem mergeRounds_shape (cmp : α → α → Bool) :
    ∀ (fuel : ℕ) (l : List α) (acc : List (List α)),
      l.length ≤ fuel →
      ∀ sg ∈ mergeRounds cmp fuel l acc,
        sg ∈ acc ∨
          ∃ (s : α) (rest : List α),
            sg = (rest.filter (fun w => cmp s w)).reverse ++ [s]
  | fuel, [], acc, _, sg, hsg => by
      rw [mergeRounds] at hsg
      exact Or.inl hsg
  | 0, v :: rest, acc, hle, sg, hsg => by
      simp at hle
  | fuel + 1, v :: rest, acc, hle, sg, hsg => by
      rw [mergeRounds] at hsg
      have hrec := mergeRounds_shape cmp fuel
        (rest.filter (fun w => !cmp v w))
        ((((rest.filter (fun w => cmp v w)).reverse) ++ [v]) :: acc)
        (Nat.le_trans (List.length_filter_le _ _) (Nat.le_of_succ_le_succ hle))
        sg hsg
      rcases hrec with h | h
      · rcases List.mem_cons.mp h with h1 | h1
        · exact Or.inr ⟨v, rest, h1⟩
        · exact Or.inl h1
      · exact Or.inr h

/-- Seed characterisation: every merge subgroup has a seed that every
other member matched. -/
theorem mergeSubgroups_seed (cmp : α → α → Bool) (l : List α)
    (sg : List α) (hsg : sg ∈ mergeSubgroups cmp l) :
    ∃ s ∈ sg, ∀ w ∈ sg, w = s ∨ cmp s w = true := by
  rcases mergeRounds_shape cmp l.length l [] (Nat.le_refl _) sg hsg with
    h | ⟨s, rest, hform⟩
  · cases h
  · subst hform
    refine ⟨s, List.mem_append_right _ (List.mem_cons_self _ _), ?_⟩
    intro w hw
    rcases List.mem_append.mp hw with h1 | h1
    · exact Or.inr (List.of_mem_filter (List.mem_reverse.mp h1))
    · rcases List.mem_cons.mp h1 with h2 | h2
      · exact Or.inl h2
      · cases h2

/-- Merging a two-member group: the pair lands in one subgroup exactly
when the head member matches the other. -/
theorem mergeSubgroups_pair (cmp : α → α → Bool) (a b : α) :
    mergeSubgroups cmp [a, b] =
      if cmp a b then [[b, a]] else [[b], [a]] := by
  by_cases h : cmp a b
  · rw [if_pos h]
    have h1 : [b].filter (fun w => cmp a w) = [b] := by simp [h]
    have h2 : [b].filter (fun w => !cmp a w) = [] := by simp [h]
    calc mergeSubgroups cmp [a, b]
        = mergeRounds cmp 1 ([b].filter (fun w => !cmp a w))
            ((([b].filter (fun w => cmp a w)).reverse ++ [a]) :: []) := rfl
      _ = mergeRounds cmp 1 [] (([b].reverse ++ [a]) :: []) := by
            rw [h1, h2]
      _ = [[b, a]] := rfl
  · rw [if_neg h]
    have hf : cmp a b = false := Bool.eq_false_iff.mpr h
    have h1 : [b].filter (fun w => cmp a w) = [] := by simp [hf]
    have h2 : [b].filter (fun w => !cmp a w) = [b] := by simp [hf]
    calc mergeSubgroups cmp [a, b]
        = mergeRounds cmp 1 ([b].filter (fun w => !cmp a w))
            ((([b].filter (fun w => cmp a w)).reverse ++ [a]) :: []) := rfl
      _ = mergeRounds cmp 1 [b] (([].reverse ++ [a]) :: []) := by
            rw [h1, h2]
      _ = [[b], [a]] := rfl

/-! ## C4: what the per-vertex merge connects -/

/-- C4 counterexample: three triangles touch mesh vertex 0 with UVs
`(9/100000, 0)`, `(-9/100000, 0)` and `(0, 0)` at that vertex.  The seed
corner, UV `(0,0)`, is within the 0.0001 tolerance of both others, so all
three land in one subgroup, yet the two outer corners differ by
`0.00018 ≥ 0.0001`: members of one subgroup need not be pairwise within
tolerance, refuting the claimed iff. -/
theorem c4_counterexample :
    inSameSubgroup
        (mergeSubgroups
          (vmapCmp
            [⟨true, [⟨0, (⟨9,100000⟩, ⟨0,1⟩), true⟩,
                ⟨1, (⟨1,1⟩, ⟨0,1⟩), true⟩, ⟨2, (⟨1,1⟩, ⟨1,1⟩), true⟩]⟩,
              ⟨true, [⟨0, (⟨-9,100000⟩, ⟨0,1⟩), true⟩,
                ⟨3, (⟨2,1⟩, ⟨0,1⟩), true⟩, ⟨4, (⟨2,1⟩, ⟨1,1⟩), true⟩]⟩,
              ⟨true, [⟨0, (⟨0,1⟩, ⟨0,1⟩), true⟩,
                ⟨5, (⟨3,1⟩, ⟨0,1⟩), true⟩, ⟨6, (⟨3,1⟩, ⟨1,1⟩), true⟩]⟩]
            false
            (vmapWinding
              [⟨true, [⟨0, (⟨9,100000⟩, ⟨0,1⟩), true⟩,
                  ⟨1, (⟨1,1⟩, ⟨0,1⟩), true⟩, ⟨2, (⟨1,1⟩, ⟨1,1⟩), true⟩]⟩,
                ⟨true, [⟨0, (⟨-9,100000⟩, ⟨0,1⟩), true⟩,
                  ⟨3, (⟨2,1⟩, ⟨0,1⟩), true⟩, ⟨4, (⟨2,1⟩, ⟨1,1⟩), true⟩]⟩,
                ⟨true, [⟨0, (⟨0,1⟩, ⟨0,1⟩), true⟩,
                  ⟨5, (⟨3,1⟩, ⟨0,1⟩), true⟩, ⟨6, (⟨3,1⟩, ⟨1,1⟩), true⟩]⟩]
              false))
          (vmapVertList
            [⟨true, [⟨0, (⟨9,100000⟩, ⟨0,1⟩), true⟩,
                ⟨1, (⟨1,1⟩, ⟨0,1⟩), true⟩, ⟨2, (⟨1,1⟩, ⟨1,1⟩), true⟩]⟩,
              ⟨true, [⟨0, (⟨-9,100000⟩, ⟨0,1⟩), true⟩,
                ⟨3, (⟨2,1⟩, ⟨0,1⟩), true⟩, ⟨4, (⟨2,1⟩, ⟨1,1⟩), true⟩]⟩,
              ⟨true, [⟨0, (⟨0,1⟩, ⟨0,1⟩), true⟩,
                ⟨5, (⟨3,1⟩, ⟨0,1⟩), true⟩, ⟨6, (⟨3,1⟩, ⟨1,1⟩), true⟩]⟩]
            false 0))
        ⟨0, 0⟩ ⟨1, 0⟩ ∧
      compare_v2v2
        (uvOfMapVert
          [⟨true, [⟨0, (⟨9,100000⟩, ⟨0,1⟩), true⟩,
              ⟨1, (⟨1,1⟩, ⟨0,1⟩), true⟩, ⟨2, (⟨1,1⟩, ⟨1,1⟩), true⟩]⟩,
            ⟨true, [⟨0, (⟨-9,100000⟩, ⟨0,1⟩), true⟩,
              ⟨3, (⟨2,1⟩, ⟨0,1⟩), true⟩, ⟨4, (⟨2,1⟩, ⟨1,1⟩), true⟩]⟩,
            ⟨true, [⟨0, (⟨0,1⟩, ⟨0,1⟩), true⟩,
              ⟨5, (⟨3,1⟩, ⟨0,1⟩), true⟩, ⟨6, (⟨3,1⟩, ⟨1,1⟩), true⟩]⟩]
          ⟨0, 0⟩)
        (uvOfMapVert
          [⟨true, [⟨0, (⟨9,100000⟩, ⟨0,1⟩), true⟩,
              ⟨1, (⟨1,1⟩, ⟨0,1⟩), true⟩, ⟨2, (⟨1,1⟩, ⟨1,1⟩), true⟩]⟩,
            ⟨true, [⟨0, (⟨-9,100000⟩, ⟨0,1⟩), true⟩,
              ⟨3, (⟨2,1⟩, ⟨0,1⟩), true⟩, ⟨4, (⟨2,1⟩, ⟨1,1⟩), true⟩]⟩,
            ⟨true, [⟨0, (⟨0,1⟩, ⟨0,1⟩), true⟩,
              ⟨5, (⟨3,1⟩, ⟨0,1⟩), true⟩, ⟨6, (⟨3,1⟩, ⟨1,1⟩), true⟩]⟩]
          ⟨1, 0⟩)
        STD_UV_CONNECT_LIMIT = false := by
  refine ⟨by decide, by decide⟩

/-- C4 amended: two group members end in the same maximal subgroup iff
both are connected to the subgroup's seed (the popped head) by the
tolerance-and-winding test — closeness is measured against the seed, not
pairwise.  For a two-member group this reduces to the claimed pairwise
test, so two coincident UVs on opposite-winding faces do not merge when
`use_winding` and do merge otherwise. -/
theorem c4_amended_seed_merge (mesh : List UVFace)
    (use_select use_winding : Bool) (vmap : UvVertMap)
    (hmap : BM_uv_vert_map_create mesh use_select use_winding = some vmap)
    (v : ℕ) :
    (∀ sg ∈ vmap.vert v, ∃ s ∈ sg, ∀ w ∈ sg, w = s ∨
        vmapCmp mesh use_winding (vmapWinding mesh use_select) s w = true) ∧
      (∀ a b, vmapVertList mesh use_select v = [a, b] → a ≠ b →
        (inSameSubgroup (vmap.vert v) a b ↔
          vmapCmp mesh use_winding (vmapWinding mesh use_select) a b =
            true)) := by
  have hvert : vmap.vert v =
      mergeSubgroups (vmapCmp mesh use_winding (vmapWinding mesh use_select))
        (vmapVertList mesh use_select v) := by
    rw [BM_uv_vert_map_create] at hmap
    by_cases h : vmap_totuv mesh use_select = 0
    · rw [if_pos h] at hmap; cases hmap
    · rw [if_neg h] at hmap
      cases hmap
      rfl
  constructor
  · intro sg hsg
    rw [hvert] at hsg
    exact mergeSubgroups_seed _ _ sg hsg
  · intro a b hlist hab
    rw [hvert, hlist, mergeSubgroups_pair]
    by_cases h : vmapCmp mesh use_winding (vmapWinding mesh use_select) a b
    · rw [if_pos h]
      simp only [h, iff_true]
      exact ⟨[b, a], List.mem_cons_self _ _,
        List.mem_cons_of_mem _ (List.mem_cons_self _ _),
        List.mem_cons_self _ _⟩
    · rw [if_neg h]
      simp only [Bool.eq_false_iff.mpr h]
      constructor
      · rintro ⟨sg, hsg, ha, hb⟩
        rcases List.mem_cons.mp hsg with h1 | h1
        · subst h1
          rcases List.mem_cons.mp ha with h2 | h2
          · rcases List.mem_cons.mp hb with h3 | h3
            · exact absurd (h2.trans h3.symm) hab
            · cases h3
          · cases h2
        · rcases List.mem_cons.mp h1 with h2 | h2
          · subst h2
            rcases List.mem_cons.mp ha with h3 | h3
            · rcases List.mem_cons.mp hb with h4 | h4
              · exact absurd (h3.trans h4.symm) hab
              · cases h4
            · cases h3
          · cases h2
      · intro h1
        cases h1

/-- Witness for C4's amended statement: the opposite-winding pair at the
shared vertex of two triangles (coincident UVs) does not merge with
`use_winding = true`. -/
theorem c4_witness :
    ¬inSameSubgroup
        ((Option.getD
          (BM_uv_vert_map_create
            [⟨true, [⟨0, (⟨0,1⟩, ⟨0,1⟩), true⟩, ⟨1, (⟨1,1⟩, ⟨0,1⟩), true⟩,
                ⟨2, (⟨0,1⟩, ⟨1,1⟩), true⟩]⟩,
              ⟨true, [⟨0, (⟨0,1⟩, ⟨0,1⟩), true⟩, ⟨3, (⟨0,1⟩, ⟨1,1⟩), true⟩,
                ⟨4, (⟨1,1⟩, ⟨0,1⟩), true⟩]⟩]
            false true)
          ⟨fun _ => []⟩).vert 0)
        ⟨1, 0⟩ ⟨0, 0⟩ := by
  have h := (c4_amended_seed_merge
    [⟨true, [⟨0, (⟨0,1⟩, ⟨0,1⟩), true⟩, ⟨1, (⟨1,1⟩, ⟨0,1⟩), true⟩,
        ⟨2, (⟨0,1⟩, ⟨1,1⟩), true⟩]⟩,
      ⟨true, [⟨0, (⟨0,1⟩, ⟨0,1⟩), true⟩, ⟨3, (⟨0,1⟩, ⟨1,1⟩), true⟩,
        ⟨4, (⟨1,1⟩, ⟨0,1⟩), true⟩]⟩]
    false true
    (Option.getD
      (BM_uv_vert_map_create
        [⟨true, [⟨0, (⟨0,1⟩, ⟨0,1⟩), true⟩, ⟨1, (⟨1,1⟩, ⟨0,1⟩), true⟩,
            ⟨2, (⟨0,1⟩, ⟨1,1⟩), true⟩]⟩,
          ⟨true, [⟨0, (⟨0,1⟩, ⟨0,1⟩), true⟩, ⟨3, (⟨0,1⟩, ⟨1,1⟩), true⟩,
            ⟨4, (⟨1,1⟩, ⟨0,1⟩), true⟩]⟩]
        false true)
      ⟨fun _ => []⟩)
    rfl 0).2 ⟨1, 0⟩ ⟨0, 0⟩ (by decide) (by decide)
  intro hc
  have := h.mp hc
  have hfalse : vmapCmp
      [⟨true, [⟨0, (⟨0,1⟩, ⟨0,1⟩), true⟩, ⟨1, (⟨1,1⟩, ⟨0,1⟩), true⟩,
          ⟨2, (⟨0,1⟩, ⟨1,1⟩), true⟩]⟩,
        ⟨true, [⟨0, (⟨0,1⟩, ⟨0,1⟩), true⟩, ⟨3, (⟨0,1⟩, ⟨1,1⟩), true⟩,
          ⟨4, (⟨1,1⟩, ⟨0,1⟩), true⟩]⟩]
      true (vmapWinding
        [⟨true, [⟨0, (⟨0,1⟩, ⟨0,1⟩), true⟩, ⟨1, (⟨1,1⟩, ⟨0,1⟩), true⟩,
            ⟨2, (⟨0,1⟩, ⟨1,1⟩), true⟩]⟩,
          ⟨true, [⟨0, (⟨0,1⟩, ⟨0,1⟩), true⟩, ⟨3, (⟨0,1⟩, ⟨1,1⟩), true⟩,
            ⟨4, (⟨1,1⟩, ⟨0,1⟩), true⟩]⟩]
        false) ⟨1, 0⟩ ⟨0, 0⟩ = false := by decide
  rw [this] at hfalse
  cases hfalse

/-! ## C9: selection states within one element subgroup -/

/-- An element-map match requires equal per-corner selection states. -/
theorem elemCmp_sel_eq (mesh : List UVFace) (use_winding : Bool)
    (w : ℕ → Bool) (a b : UvElement)
    (h : elemCmp mesh use_winding w a b = true) :
    (elemLoop mesh a).uvSel = (elemLoop mesh b).uvSel := by
  rw [elemCmp, Bool.and_eq_true, Bool.and_eq_true] at h
  exact beq_iff_eq.mp h.1.1

/-- C9: two corners merged into the same element-map subgroup always have
equal selection states under the per-corner UV-selection predicate; in
particular a selected and an unselected corner are never merged, whatever
their UV coordinates. -/
theorem c9_subgroup_sel_homogeneous (mesh : List UVFace)
    (face_selected uv_selected use_winding : Bool) (emap : UvElementMap)
    (hmap : BM_uv_element_map_create mesh face_selected uv_selected
      use_winding false = some emap)
    (v : ℕ) (sg : List UvElement) (hsg : sg ∈ emap.vert v)
    (a b : UvElement) (ha : a ∈ sg) (hb : b ∈ sg) :
    (elemLoop mesh a).uvSel = (elemLoop mesh b).uvSel := by
  have hvert : emap.vert v = elemSubgroups mesh face_selected uv_selected
      use_winding v := by
    rw [BM_uv_element_map_create] at hmap
    by_cases h : elem_totuv mesh face_selected uv_selected = 0
    · rw [if_pos h] at hmap; cases hmap
    · rw [if_neg h] at hmap
      cases hmap
      rfl
  rw [hvert, elemSubgroups] at hsg
  rcases mergeSubgroups_seed _ _ sg hsg with ⟨s, -, hs⟩
  have hsa : (elemLoop mesh s).uvSel = (elemLoop mesh a).uvSel := by
    rcases hs a ha with h | h
    · rw [h]
    · exact elemCmp_sel_eq mesh use_winding _ s a h
  have hsb : (elemLoop mesh s).uvSel = (elemLoop mesh b).uvSel := by
    rcases hs b hb with h | h
    · rw [h]
    · exact elemCmp_sel_eq mesh use_winding _ s b h
  rw [← hsa, hsb]

/-- Witness for C9: a mesh with a selected and an unselected corner at
the same UV coordinate; the two corners of one subgroup both carry the
same selection state. -/
theorem c9_witness :
    (elemLoop
      [⟨true, [⟨0, (⟨0,1⟩, ⟨0,1⟩), true⟩, ⟨1, (⟨1,1⟩, ⟨0,1⟩), true⟩,
          ⟨2, (⟨0,1⟩, ⟨1,1⟩), true⟩]⟩,
        ⟨true, [⟨0, (⟨0,1⟩, ⟨0,1⟩), false⟩, ⟨3, (⟨0,1⟩, ⟨1,1⟩), true⟩,
          ⟨4, (⟨1,1⟩, ⟨0,1⟩), true⟩]⟩]
      (⟨0, 0⟩ : UvElement)).uvSel =
      (elemLoop
        [⟨true, [⟨0, (⟨0,1⟩, ⟨0,1⟩), true⟩, ⟨1, (⟨1,1⟩, ⟨0,1⟩), true⟩,
            ⟨2, (⟨0,1⟩, ⟨1,1⟩), true⟩]⟩,
          ⟨true, [⟨0, (⟨0,1⟩, ⟨0,1⟩), false⟩, ⟨3, (⟨0,1⟩, ⟨1,1⟩), true⟩,
            ⟨4, (⟨1,1⟩, ⟨0,1⟩), true⟩]⟩]
        (⟨0, 0⟩ : UvElement)).uvSel :=
  c9_subgroup_sel_homogeneous
    [⟨true, [⟨0, (⟨0,1⟩, ⟨0,1⟩), true⟩, ⟨1, (⟨1,1⟩, ⟨0,1⟩), true⟩,
        ⟨2, (⟨0,1⟩, ⟨1,1⟩), true⟩]⟩,
      ⟨true, [⟨0, (⟨0,1⟩, ⟨0,1⟩), false⟩, ⟨3, (⟨0,1⟩, ⟨1,1⟩), true⟩,
        ⟨4, (⟨1,1⟩, ⟨0,1⟩), true⟩]⟩]
    false false false
    (Option.getD
      (BM_uv_element_map_create
        [⟨true, [⟨0, (⟨0,1⟩, ⟨0,1⟩), true⟩, ⟨1, (⟨1,1⟩, ⟨0,1⟩), true⟩,
            ⟨2, (⟨0,1⟩, ⟨1,1⟩), true⟩]⟩,
          ⟨true, [⟨0, (⟨0,1⟩, ⟨0,1⟩), false⟩, ⟨3, (⟨0,1⟩, ⟨1,1⟩), true⟩,
            ⟨4, (⟨1,1⟩, ⟨0,1⟩), true⟩]⟩]
        false false false false)
      ⟨fun _ => [], fun _ => none⟩)
    rfl 0 [⟨0, 0⟩] (by decide) ⟨0, 0⟩ ⟨0, 0⟩ (by decide) (by decide)

/-! ## Element-buffer membership (for C5) -/

/-- Membership in a concatenation of lists. -/
theorem mem_catLists {ls : List (List α)} {a : α} :
    a ∈ catLists ls ↔ ∃ l ∈ ls, a ∈ l := by
  induction ls with
  | nil => simp [catLists]
  | cons l rest ih =>
      rw [catLists, List.foldr_cons, List.mem_append]
      constructor
      · rintro (h | h)
        · exact ⟨l, List.mem_cons_self _ _, h⟩
        · rcases ih.mp h with ⟨l', hl', ha⟩
          exact ⟨l', List.mem_cons_of_mem _ hl', ha⟩
      · rintro ⟨l', hl', ha⟩
        rcases List.mem_cons.mp hl' with h1 | h1
        · subst h1; exact Or.inl ha
        · exact Or.inr (ih.mpr ⟨l', h1, ha⟩)

/-- An element is in the buffer exactly when it names an existing,
filter-passing corner of an existing, filter-passing face. -/
theorem mem_elemBuf (mesh : List UVFace) (face_selected uv_selected : Bool)
    (e : UvElement) :
    e ∈ elemBuf mesh face_selected uv_selected ↔
      e.faceIdx < mesh.length ∧
        elemFaceOK face_selected (faceAt mesh e.faceIdx) = true ∧
        e.loopIdx < (faceAt mesh e.faceIdx).loops.length ∧
        elemLoopOK uv_selected (loopAt mesh e.faceIdx e.loopIdx) = true := by
  rw [elemBuf, mem_catLists]
  constructor
  · rintro ⟨l, hl, he⟩
    rcases List.mem_map.mp hl with ⟨f, hf, hfl⟩
    subst hfl
    by_cases hok : elemFaceOK face_selected (faceAt mesh f) = true
    · rw [if_pos hok] at he
      rcases mem_catLists.mp he with ⟨l', hl', he'⟩
      rcases List.mem_map.mp hl' with ⟨j, hj, hjl⟩
      subst hjl
      by_cases hlok : elemLoopOK uv_selected (loopAt mesh f j) = true
      · rw [if_pos hlok] at he'
        rcases List.mem_singleton.mp he' with rfl
        exact ⟨List.mem_range.mp hf, hok, List.mem_range.mp hj, hlok⟩
      · rw [if_neg hlok] at he'
        cases he'
    · rw [if_neg hok] at he
      cases he
  · rintro ⟨hf, hok, hj, hlok⟩
    refine ⟨_, List.mem_map.mpr ⟨e.faceIdx, List.mem_range.mpr hf, rfl⟩, ?_⟩
    rw [if_pos hok]
    refine mem_catLists.mpr
      ⟨_, List.mem_map.mpr ⟨e.loopIdx, List.mem_range.mpr hj, rfl⟩, ?_⟩
    rw [if_pos hlok]
    exact List.mem_singleton.mpr rfl

/-- Members of a per-vertex element list are exactly the created elements
touching that vertex. -/
theorem mem_elemVertList (mesh : List UVFace)
    (face_selected uv_selected : Bool) (v : ℕ) (e : UvElement) :
    e ∈ elemVertList mesh face_selected uv_selected v ↔
      e ∈ elemBuf mesh face_selected uv_selected ∧
        (elemLoop mesh e).v = v := by
  rw [elemVertList, List.mem_reverse, List.mem_filter]
  constructor
  · rintro ⟨h1, h2⟩
    exact ⟨h1, beq_iff_eq.mp h2⟩
  · rintro ⟨h1, h2⟩
    exact ⟨h1, beq_iff_eq.mpr h2⟩

/-- All members of all merge subgroups come from the input list. -/
theorem mergeRounds_members (cmp : α → α → Bool) :
    ∀ (fuel : ℕ) (l : List α) (acc : List (List α)),
      l.length ≤ fuel →
      ∀ sg ∈ mergeRounds cmp fuel l acc, ∀ e ∈ sg,
        e ∈ l ∨ ∃ sg' ∈ acc, e ∈ sg'
  | fuel, [], acc, _, sg, hsg, e, he => by
      rw [mergeRounds] at hsg
      exact Or.inr ⟨sg, hsg, he⟩
  | 0, v :: rest, acc, hle, sg, hsg, e, he => by simp at hle
  | fuel + 1, v :: rest, acc, hle, sg, hsg, e, he => by
      rw [mergeRounds] at hsg
      have hrec := mergeRounds_members cmp fuel
        (rest.filter (fun w => !cmp v w))
        ((((rest.filter (fun w => cmp v w)).reverse) ++ [v]) :: acc)
        (Nat.le_trans (List.length_filter_le _ _)
          (Nat.le_of_succ_le_succ hle)) sg hsg e he
      rcases hrec with h | ⟨sg', hsg', he'⟩
      · exact Or.inl (List.mem_cons_of_mem _ (List.mem_of_mem_filter h))
      · rcases List.mem_cons.mp hsg' with h1 | h1
        · subst h1
          rcases List.mem_append.mp he' with h2 | h2
          · exact Or.inl (List.mem_cons_of_mem _
              (List.mem_of_mem_filter (List.mem_reverse.mp h2)))
          · rcases List.mem_cons.mp h2 with h3 | h3
            · subst h3; exact Or.inl (List.mem_cons_self _ _)
            · cases h3
        · exact Or.inr ⟨sg', h1, he'⟩

/-- The accumulator only grows. -/
theorem mergeRounds_acc_mono (cmp : α → α → Bool) :
    ∀ (fuel : ℕ) (l : List α) (acc : List (List α)) (sg : List α),
      sg ∈ acc → sg ∈ mergeRounds cmp fuel l acc
  | fuel, [], acc, sg, hsg => by rw [mergeRounds]; exact hsg
  | 0, v :: rest, acc, sg, hsg => by rw [mergeRounds]; exact hsg
  | fuel + 1, v :: rest, acc, sg, hsg =>
      mergeRounds_acc_mono cmp fuel _ _ sg (List.mem_cons_of_mem _ hsg)

/-- Every input member lands in some subgroup. -/
theorem mergeRounds_cover (cmp : α → α → Bool) :
    ∀ (fuel : ℕ) (l : List α) (acc : List (List α)) (e : α),
      l.length ≤ fuel → e ∈ l →
      ∃ sg ∈ mergeRounds cmp fuel l acc, e ∈ sg
  | fuel, [], acc, e, _, he => absurd he (List.not_mem_nil e)
  | 0, v :: rest, acc, e, hle, he => by simp at hle
  | fuel + 1, v :: rest, acc, e, hle, he => by
      rw [mergeRounds]
      have hfuel : (rest.filter (fun w => !cmp v w)).length ≤ fuel :=
        Nat.le_trans (List.length_filter_le _ _)
          (Nat.le_of_succ_le_succ hle)
      rcases List.mem_cons.mp he with h1 | h1
      · subst h1
        exact ⟨_, mergeRounds_acc_mono cmp fuel _ _ _
          (List.mem_cons_self _ _),
          List.mem_append_right _ (List.mem_cons_self _ _)⟩
      · by_cases hc : cmp v e = true
        · refine ⟨_, mergeRounds_acc_mono cmp fuel _ _ _
            (List.mem_cons_self _ _), ?_⟩
          exact List.mem_append_left _
            (List.mem_reverse.mpr (List.mem_filter.mpr ⟨h1, hc⟩))
        · exact mergeRounds_cover cmp fuel _ _ e hfuel
            (List.mem_filter.mpr ⟨h1, by simp [hc]⟩)

/-- Subgroup members of the per-vertex element map belong to the element
buffer and touch the vertex. -/
theorem elemSubgroups_members (mesh : List UVFace)
    (face_selected uv_selected use_winding : Bool) (v : ℕ)
    (sg : List UvElement) (hsg : sg ∈ elemSubgroups mesh face_selected
      uv_selected use_winding v) (e : UvElement) (he : e ∈ sg) :
    e ∈ elemBuf mesh face_selected uv_selected ∧ (elemLoop mesh e).v = v := by
  rcases mergeRounds_members _ _ _ _ (Nat.le_refl _) sg hsg e he with
    h | ⟨sg', hsg', -⟩
  · exact (mem_elemVertList mesh face_selected uv_selected v e).mp h
  · cases hsg'

/-- Every created element touching `v` is in some subgroup at `v`. -/
theorem elemSubgroups_cover (mesh : List UVFace)
    (face_selected uv_selected use_winding : Bool) (v : ℕ) (e : UvElement)
    (he : e ∈ elemBuf mesh face_selected uv_selected)
    (hv : (elemLoop mesh e).v = v) :
    ∃ sg ∈ elemSubgroups mesh face_selected uv_selected use_winding v,
      e ∈ sg :=
  mergeRounds_cover _ _ _ _ e (Nat.le_refl _)
    ((mem_elemVertList mesh face_selected uv_selected v e).mpr ⟨he, hv⟩)

/-- On simple faces (no vertex repeated within one face), an element of
the buffer is determined by its owning face and its vertex. -/
theorem elemBuf_unique (mesh : List UVFace)
    (face_selected uv_selected : Bool)
    (hnd : ∀ fc ∈ mesh, ((fc.loops).map UVLoop.v).Nodup)
    (e1 e2 : UvElement)
    (h1 : e1 ∈ elemBuf mesh face_selected uv_selected)
    (h2 : e2 ∈ elemBuf mesh face_selected uv_selected)
    (hf : e1.faceIdx = e2.faceIdx)
    (hv : (elemLoop mesh e1).v = (elemLoop mesh e2).v) : e1 = e2 := by
  rcases (mem_elemBuf _ _ _ _).mp h1 with ⟨hb1, -, hj1, -⟩
  rcases (mem_elemBuf _ _ _ _).mp h2 with ⟨hb2, -, hj2, -⟩
  have hface : faceAt mesh e1.faceIdx ∈ mesh := by
    rw [faceAt, List.getD_eq_getElem mesh default hb1]
    exact List.getElem_mem hb1
  have hndf := hnd _ hface
  rw [← hf] at hj2
  have hget : ((faceAt mesh e1.faceIdx).loops.map UVLoop.v).get
      ⟨e1.loopIdx, by rw [List.length_map]; exact hj1⟩ =
      ((faceAt mesh e1.faceIdx).loops.map UVLoop.v).get
      ⟨e2.loopIdx, by rw [List.length_map]; exact hj2⟩ := by
    rw [List.get_eq_getElem, List.get_eq_getElem,
      List.getElem_map, List.getElem_map]
    have hl1 : elemLoop mesh e1 =
        (faceAt mesh e1.faceIdx).loops.get ⟨e1.loopIdx, hj1⟩ := by
      rw [List.get_eq_getElem, elemLoop, loopAt,
        List.getD_eq_getElem _ default hj1]
    have hl2 : elemLoop mesh e2 =
        (faceAt mesh e1.faceIdx).loops.get ⟨e2.loopIdx, hj2⟩ := by
      rw [List.get_eq_getElem, elemLoop, loopAt, ← hf,
        List.getD_eq_getElem _ default hj2]
    rw [List.get_eq_getElem] at hl1
    rw [List.get_eq_getElem] at hl2
    rw [← hl1, ← hl2]
    exact hv
  rw [List.get_eq_getElem, List.get_eq_getElem] at hget
  have := List.Nodup.getElem_inj_iff hndf |>.mp hget
  cases e1
  cases e2
  simp only at hf this
  rw [hf, this]

/-! ## Flood-fill support lemmas (for C5) -/

/-- Soundness of the subgroup walk: a hit is a subgroup of the list
holding an element of face `f`. -/
theorem findFaceElem_sound (sgs : List (List UvElement)) (f : ℕ)
    (sg : List UvElement) (e : UvElement)
    (h : findFaceElem sgs f = some (sg, e)) :
    sg ∈ sgs ∧ e ∈ sg ∧ e.faceIdx = f := by
  induction sgs with
  | nil => cases h
  | cons sg0 rest ih =>
      rw [findFaceElem] at h
      cases hfind : sg0.find? (fun x => x.faceIdx == f) with
      | some e0 =>
          rw [hfind] at h
          have heq := Option.some.inj h
          have h1 : sg0 = sg := congrArg Prod.fst heq
          have h2 : e0 = e := congrArg Prod.snd heq
          subst h1
          subst h2
          refine ⟨List.mem_cons_self _ _, List.mem_of_find?_eq_some hfind, ?_⟩
          have := List.find?_some hfind
          exact beq_iff_eq.mp this
      | none =>
          rw [hfind] at h
          rcases ih h with ⟨ha, hb, hc⟩
          exact ⟨List.mem_cons_of_mem _ ha, hb, hc⟩

/-- Completeness of the subgroup walk: when some subgroup holds an
element of face `f`, the walk returns a hit. -/
theorem findFaceElem_complete (sgs : List (List UvElement)) (f : ℕ)
    (h : ∃ sg ∈ sgs, ∃ e ∈ sg, e.faceIdx = f) :
    ∃ sg e, findFaceElem sgs f = some (sg, e) := by
  induction sgs with
  | nil => rcases h with ⟨sg, hsg, -⟩; cases hsg
  | cons sg0 rest ih =>
      rw [findFaceElem]
      cases hfind : sg0.find? (fun x => x.faceIdx == f) with
      | some e0 => exact ⟨sg0, e0, rfl⟩
      | none =>
          apply ih
          rcases h with ⟨sg, hsg, e, he, hef⟩
          rcases List.mem_cons.mp hsg with h1 | h1
          · subst h1
            have := List.find?_eq_none.mp hfind e he
            rw [beq_iff_eq] at this
            exact absurd hef this
          · exact ⟨sg, h1, e, he, hef⟩

/-- Marking an unmarked in-range face reduces the unmarked count by one. -/
theorem count_none_set (fi : List (Option ℕ)) (f n : ℕ)
    (hf : f < fi.length) (hnone : fi.getD f none = none) :
    (fi.set f (some n)).count none + 1 = fi.count none := by
  induction fi generalizing f with
  | nil => cases hf
  | cons a rest ih =>
      cases f with
      | zero =>
          have ha : a = none := hnone
          rw [List.set_cons_zero, ha]
          simp [List.count_cons]
      | succ f' =>
          rw [List.set_cons_succ]
          have h1 := ih f' (Nat.lt_of_succ_lt_succ hf) hnone
          simp only [List.count_cons]
          omega

/-- A push leaves all existing face marks in place. -/
theorem pushMember_fi_stable (n : ℕ) (st : IslandState) (e : UvElement)
    (g : ℕ) (k : ℕ) (hg : st.fi.getD g none = some k) :
    (pushMember n st e).fi.getD g none = some k := by
  rw [pushMember]
  by_cases hc : st.fi.getD e.faceIdx none = none
  · rw [if_pos hc]
    by_cases hge : e.faceIdx = g
    · subst hge
      rw [hg] at hc
      cases hc
    · show (st.fi.set e.faceIdx (some n)).getD g none = some k
      rw [getD_set_ne _ _ hge]
      exact hg
  · rw [if_neg hc]
    exact hg

/-- A push never touches the element assignment. -/
theorem pushMember_ei (n : ℕ) (st : IslandState) (e : UvElement) :
    (pushMember n st e).ei = st.ei := by
  rw [pushMember]
  by_cases hc : st.fi.getD e.faceIdx none = none
  · rw [if_pos hc]
  · rw [if_neg hc]

/-- A push keeps the face-array length. -/
theorem pushMember_fi_length (n : ℕ) (st : IslandState) (e : UvElement) :
    (pushMember n st e).fi.length = st.fi.length := by
  rw [pushMember]
  by_cases hc : st.fi.getD e.faceIdx none = none
  · rw [if_pos hc]; exact List.length_set _ _ _
  · rw [if_neg hc]

/-- A push of an in-range face does not increase the measure. -/
theorem pushMember_measure (n : ℕ) (st : IslandState) (e : UvElement)
    (hf : e.faceIdx < st.fi.length) :
    (pushMember n st e).stack.length + (pushMember n st e).fi.count none ≤
        st.stack.length + st.fi.count none ∧
      (pushMember n st e).fi.count none ≤ st.fi.count none := by
  rw [pushMember]
  by_cases hc : st.fi.getD e.faceIdx none = none
  · rw [if_pos hc]
    have := count_none_set st.fi e.faceIdx n hf hc
    constructor
    · show st.stack.length + 1 + (st.fi.set e.faceIdx (some n)).count none ≤ _
      omega
    · show (st.fi.set e.faceIdx (some n)).count none ≤ _
      omega
  · rw [if_neg hc]
    exact ⟨Nat.le_refl _, Nat.le_refl _⟩

/-- The step relation is reflexive. -/
theorem IslandStepOK.rfl (n : ℕ) (st : IslandState) : IslandStepOK n st st :=
  ⟨fun _ _ h => h, fun _ h => h, fun _ h => h, Eq.refl _, Nat.le_refl _,
    Nat.le_refl _⟩

/-- The step relation composes. -/
theorem IslandStepOK.comp {n : ℕ} {s1 s2 s3 : IslandState}
    (a : IslandStepOK n s1 s2) (b : IslandStepOK n s2 s3) :
    IslandStepOK n s1 s3 :=
  ⟨fun g k h => b.stable_fi g k (a.stable_fi g k h),
    fun e h => b.mono_n e (a.mono_n e h),
    fun e h => b.mono_some e (a.mono_some e h),
    b.len_fi.trans a.len_fi,
    Nat.le_trans b.meas a.meas,
    Nat.le_trans b.meas_cn a.meas_cn⟩

/-- One push is a valid step. -/
theorem pushMember_stepOK (n : ℕ) (st : IslandState) (e : UvElement)
    (hf : e.faceIdx < st.fi.length) :
    IslandStepOK n st (pushMember n st e) := by
  have hm := pushMember_measure n st e hf
  exact ⟨fun g k h => pushMember_fi_stable n st e g k h,
    fun e' h => by rw [pushMember_ei]; exact h,
    fun e' h => by rw [pushMember_ei]; exact h,
    pushMember_fi_length n st e, hm.1, hm.2⟩

/-- A fold of pushes over a subgroup is a valid step and keeps the
element assignment. -/
theorem pushFold_stepOK (n : ℕ) :
    ∀ (sg : List UvElement) (st : IslandState),
      (∀ e ∈ sg, e.faceIdx < st.fi.length) →
      IslandStepOK n st (sg.foldl (pushMember n) st) ∧
        (sg.foldl (pushMember n) st).ei = st.ei
  | [], st, _ => ⟨IslandStepOK.rfl n st, Eq.refl _⟩
  | e :: rest, st, hin => by
      rw [List.foldl_cons]
      have hf : e.faceIdx < st.fi.length := hin e (List.mem_cons_self _ _)
      have h1 := pushMember_stepOK n st e hf
      have h2 := pushFold_stepOK n rest (pushMember n st e)
        (fun e' he' => by
          rw [pushMember_fi_length]
          exact hin e' (List.mem_cons_of_mem _ he'))
      exact ⟨h1.comp h2.1, h2.2.trans (pushMember_ei n st e)⟩

/-- A push preserves the flood invariant when the pushed element is a
created element of the buffer. -/
theorem pushMember_inv (mesh : List UVFace)
    (face_selected uv_selected : Bool) (n : ℕ) (ex : Option ℕ)
    (st : IslandState) (e : UvElement)
    (hinv : islandInvE mesh face_selected uv_selected n ex st)
    (he : e ∈ elemBuf mesh face_selected uv_selected) :
    islandInvE mesh face_selected uv_selected n ex (pushMember n st e) := by
  obtain ⟨hlen, hS1, hS2, hS3, hS4, hS6⟩ := hinv
  rcases (mem_elemBuf _ _ _ _).mp he with ⟨hgf, hgok, -, -⟩
  rw [pushMember]
  by_cases hc : st.fi.getD e.faceIdx none = none
  · rw [if_pos hc]
    have hglt : e.faceIdx < st.fi.length := by rw [hlen]; exact hgf
    refine ⟨by rw [List.length_set]; exact hlen, ?_, ?_, ?_, ?_, ?_⟩
    · intro f hfm
      rcases List.mem_cons.mp hfm with h1 | h1
      · subst h1
        exact ⟨getD_set_self _ _ hglt, hgf, hgok⟩
      · have hne : e.faceIdx ≠ f := by
          intro hh
          rw [hh] at hc
          rw [(hS1 f h1).1] at hc
          cases hc
        rw [getD_set_ne _ _ hne]
        exact hS1 f h1
    · intro f hf hex
      by_cases hfe : e.faceIdx = f
      · exact Or.inl (by rw [hfe]; exact List.mem_cons_self _ _)
      · rw [getD_set_ne _ _ hfe] at hf
        rcases hS2 f hf hex with h1 | h1
        · exact Or.inl (List.mem_cons_of_mem _ h1)
        · exact Or.inr h1
    · intro f k hf hk
      by_cases hfe : e.faceIdx = f
      · subst hfe
        rw [getD_set_self _ _ hglt] at hf
        have := Option.some.inj hf
        omega
      · rw [getD_set_ne _ _ hfe] at hf
        exact hS3 f k hf hk
    · intro e' k he'
      rcases hS4 e' k he' with ⟨h1, h2, h3⟩
      refine ⟨h1, ?_, h3⟩
      by_cases hfe : e.faceIdx = e'.faceIdx
      · rw [← hfe] at h2
        rw [h2] at hc
        cases hc
      · rw [getD_set_ne _ _ hfe]
        exact h2
    · intro f k hf
      by_cases hfe : e.faceIdx = f
      · subst hfe
        rw [getD_set_self _ _ hglt] at hf
        have := Option.some.inj hf
        exact ⟨by omega, hgf, hgok⟩
      · rw [getD_set_ne _ _ hfe] at hf
        exact hS6 f k hf
  · rw [if_neg hc]
    exact ⟨hlen, hS1, hS2, hS3, hS4, hS6⟩

/-- A fold of pushes over buffer elements preserves the invariant. -/
theorem pushFold_inv (mesh : List UVFace) (face_selected uv_selected : Bool)
    (n : ℕ) (ex : Option ℕ) :
    ∀ (sg : List UvElement) (st : IslandState),
      (∀ e ∈ sg, e ∈ elemBuf mesh face_selected uv_selected) →
      islandInvE mesh face_selected uv_selected n ex st →
      islandInvE mesh face_selected uv_selected n ex
        (sg.foldl (pushMember n) st)
  | [], st, _, hinv => hinv
  | e :: rest, st, hin, hinv => by
      rw [List.foldl_cons]
      exact pushFold_inv mesh face_selected uv_selected n ex rest _
        (fun e' he' => hin e' (List.mem_cons_of_mem _ he'))
        (pushMember_inv mesh face_selected uv_selected n ex st e hinv
          (hin e (List.mem_cons_self _ _)))

/-- Reading an island assignment at the updated element. -/
theorem setIsland_self (g : UvElement → Option ℕ) (e : UvElement) (n : ℕ) :
    setIsland g e n e = some n := by
  rw [setIsland, if_pos (Eq.refl e)]

/-- Reading an island assignment away from the updated element. -/
theorem setIsland_ne (g : UvElement → Option ℕ) (e x : UvElement) (n : ℕ)
    (h : x ≠ e) : setIsland g e n x = g x := by
  rw [setIsland, if_neg h]

/-- Handling one corner of a popped face: keeps the invariant (face
excepted), is a valid step, and assigns the corner's element to the
current island when the corner passes the filter. -/
theorem processCorner_spec (mesh : List UVFace)
    (face_selected uv_selected use_winding : Bool)
    (hnd : ∀ fc ∈ mesh, ((fc.loops).map UVLoop.v).Nodup)
    (n f : ℕ) (hf : f < mesh.length)
    (hfok : elemFaceOK face_selected (faceAt mesh f) = true)
    (st : IslandState) (j : ℕ)
    (hinv : islandInvE mesh face_selected uv_selected n (some f) st)
    (hfn : st.fi.getD f none = some n) :
    islandInvE mesh face_selected uv_selected n (some f)
      (processCorner
        (elemSubgroups mesh face_selected uv_selected use_winding)
        uv_selected mesh n f st j) ∧
      IslandStepOK n st
        (processCorner
          (elemSubgroups mesh face_selected uv_selected use_winding)
          uv_selected mesh n f st j) ∧
      (islandCornerOK mesh uv_selected f j →
        (processCorner
          (elemSubgroups mesh face_selected uv_selected use_winding)
          uv_selected mesh n f st j).ei ⟨f, j⟩ = some n) := by
  rw [processCorner]
  by_cases hskip : (uv_selected && !(loopAt mesh f j).uvSel) = true
  · rw [if_pos hskip]
    refine ⟨hinv, IslandStepOK.rfl n st, ?_⟩
    intro hok
    exfalso
    have h1 := hok.2
    rw [elemLoopOK] at h1
    rw [Bool.and_eq_true, Bool.not_eq_true'] at hskip
    rw [hskip.1, hskip.2] at h1
    cases h1
  · rw [if_neg hskip]
    cases hfind : findFaceElem
        (elemSubgroups mesh face_selected uv_selected use_winding
          ((loopAt mesh f j).v)) f with
    | none =>
        refine ⟨hinv, IslandStepOK.rfl n st, ?_⟩
        intro hok
        exfalso
        have hbuf : (⟨f, j⟩ : UvElement) ∈
            elemBuf mesh face_selected uv_selected :=
          (mem_elemBuf _ _ _ _).mpr ⟨hf, hfok, hok.1, hok.2⟩
        rcases elemSubgroups_cover mesh face_selected uv_selected use_winding
            ((loopAt mesh f j).v) ⟨f, j⟩ hbuf rfl with ⟨sg, hsg, hmem⟩
        rcases findFaceElem_complete _ f ⟨sg, hsg, ⟨f, j⟩, hmem, rfl⟩ with
          ⟨sg', e', hfind'⟩
        rw [hfind] at hfind'
        cases hfind'
    | some p =>
        dsimp only
        have hsound := findFaceElem_sound _ _ p.1 p.2 hfind
        obtain ⟨hsg_mem, he_mem, he_face⟩ := hsound
        have he_bv := elemSubgroups_members mesh face_selected uv_selected
          use_winding _ p.1 hsg_mem p.2 he_mem
        have hmembuf : ∀ e'' ∈ p.1,
            e'' ∈ elemBuf mesh face_selected uv_selected :=
          fun e'' he'' => (elemSubgroups_members mesh face_selected
            uv_selected use_winding _ p.1 hsg_mem e'' he'').1
        obtain ⟨hlen, hS1, hS2, hS3, hS4, hS6⟩ := hinv
        have hinv1 : islandInvE mesh face_selected uv_selected n (some f)
            { st with ei := setIsland st.ei p.2 n } := by
          refine ⟨hlen, hS1, ?_, ?_, ?_, hS6⟩
          · intro f' hf' hex
            rcases hS2 f' hf' hex with h1 | h1
            · exact Or.inl h1
            · refine Or.inr ?_
              intro j' hj'
              have hne : (⟨f', j'⟩ : UvElement) ≠ p.2 := by
                intro hh
                have := congrArg UvElement.faceIdx hh
                rw [he_face] at this
                exact hex (by rw [← this])
              show setIsland st.ei p.2 n ⟨f', j'⟩ = some n
              rw [setIsland_ne _ _ _ _ hne]
              exact h1 j' hj'
          · intro f'' k hfk hklt
            have hne_f : f'' ≠ f := by
              intro hh
              rw [hh, hfn] at hfk
              have := Option.some.inj hfk
              omega
            intro j' hj'
            have hne : (⟨f'', j'⟩ : UvElement) ≠ p.2 := by
              intro hh
              have := congrArg UvElement.faceIdx hh
              rw [he_face] at this
              exact hne_f this
            show setIsland st.ei p.2 n ⟨f'', j'⟩ = some k
            rw [setIsland_ne _ _ _ _ hne]
            exact hS3 f'' k hfk hklt j' hj'
          · intro e'' k he''
            have he2 : setIsland st.ei p.2 n e'' = some k := he''
            by_cases hpe : e'' = p.2
            · subst hpe
              rw [setIsland_self] at he2
              have hkn := Option.some.inj he2
              subst hkn
              refine ⟨Nat.le_refl _, ?_, he_bv.1⟩
              rw [he_face]
              exact hfn
            · rw [setIsland_ne _ _ _ _ hpe] at he2
              exact hS4 e'' k he2
        have hfaces : ∀ e'' ∈ p.1,
            e''.faceIdx < ({ st with ei := setIsland st.ei p.2 n } :
              IslandState).fi.length := by
          intro e'' he''
          have := (mem_elemBuf _ _ _ _).mp (hmembuf e'' he'')
          show e''.faceIdx < st.fi.length
          rw [hlen]
          exact this.1
        have hstep := pushFold_stepOK n p.1
          { st with ei := setIsland st.ei p.2 n } hfaces
        have hinv2 := pushFold_inv mesh face_selected uv_selected n (some f)
          p.1 { st with ei := setIsland st.ei p.2 n } hmembuf hinv1
        have hstep0 : IslandStepOK n st
            { st with ei := setIsland st.ei p.2 n } := by
          refine ⟨fun g k h => h, ?_, ?_, Eq.refl _, Nat.le_refl _,
            Nat.le_refl _⟩
          · intro e'' h
            show setIsland st.ei p.2 n e'' = some n
            by_cases hpe : e'' = p.2
            · subst hpe; exact setIsland_self _ _ _
            · rw [setIsland_ne _ _ _ _ hpe]; exact h
          · intro e'' h
            show (setIsland st.ei p.2 n e'').isSome = true
            by_cases hpe : e'' = p.2
            · subst hpe; rw [setIsland_self]; rfl
            · rw [setIsland_ne _ _ _ _ hpe]; exact h
        refine ⟨hinv2, hstep0.comp hstep.1, ?_⟩
        intro hok
        rw [hstep.2]
        have hbuf : (⟨f, j⟩ : UvElement) ∈
            elemBuf mesh face_selected uv_selected :=
          (mem_elemBuf _ _ _ _).mpr ⟨hf, hfok, hok.1, hok.2⟩
        have heq : p.2 = (⟨f, j⟩ : UvElement) := by
          apply elemBuf_unique mesh face_selected uv_selected hnd p.2
            ⟨f, j⟩ he_bv.1 hbuf (by rw [he_face])
          rw [he_bv.2]
          rfl
        show setIsland st.ei p.2 n ⟨f, j⟩ = some n
        rw [heq]
        exact setIsland_self _ _ _

/-- Handling a list of corner positions of the popped face: invariant,
valid step, and every listed filter-passing corner assigned. -/
theorem processCorner_fold_spec (mesh : List UVFace)
    (face_selected uv_selected use_winding : Bool)
    (hnd : ∀ fc ∈ mesh, ((fc.loops).map UVLoop.v).Nodup)
    (n f : ℕ) (hf : f < mesh.length)
    (hfok : elemFaceOK face_selected (faceAt mesh f) = true) :
    ∀ (ll : List ℕ) (st : IslandState),
      islandInvE mesh face_selected uv_selected n (some f) st →
      st.fi.getD f none = some n →
      islandInvE mesh face_selected uv_selected n (some f)
        (ll.foldl (processCorner
          (elemSubgroups mesh face_selected uv_selected use_winding)
          uv_selected mesh n f) st) ∧
        IslandStepOK n st
          (ll.foldl (processCorner
            (elemSubgroups mesh face_selected uv_selected use_winding)
            uv_selected mesh n f) st) ∧
        (∀ j ∈ ll, islandCornerOK mesh uv_selected f j →
          (ll.foldl (processCorner
            (elemSubgroups mesh face_selected uv_selected use_winding)
            uv_selected mesh n f) st).ei ⟨f, j⟩ = some n)
  | [], st, hinv, _ =>
      ⟨hinv, IslandStepOK.rfl n st,
        fun j hj => absurd hj (List.not_mem_nil j)⟩
  | j :: rest, st, hinv, hfn => by
      rw [List.foldl_cons]
      have h1 := processCorner_spec mesh face_selected uv_selected
        use_winding hnd n f hf hfok st j hinv hfn
      have h2 := processCorner_fold_spec mesh face_selected uv_selected
        use_winding hnd n f hf hfok rest _ h1.1
        (h1.2.1.stable_fi f n hfn)
      refine ⟨h2.1, h1.2.1.comp h2.2.1, ?_⟩
      intro j' hj' hok
      rcases List.mem_cons.mp hj' with hh | hh
      · subst hh
        exact h2.2.1.mono_n _ (h1.2.2 hok)
      · exact h2.2.2 j' hh hok

/-- Handling a popped face: invariant, valid step, and the face fully
assigned. -/
theorem processFace_spec (mesh : List UVFace)
    (face_selected uv_selected use_winding : Bool)
    (hnd : ∀ fc ∈ mesh, ((fc.loops).map UVLoop.v).Nodup)
    (n f : ℕ) (hf : f < mesh.length)
    (hfok : elemFaceOK face_selected (faceAt mesh f) = true)
    (st : IslandState)
    (hinv : islandInvE mesh face_selected uv_selected n (some f) st)
    (hfn : st.fi.getD f none = some n) :
    islandInvE mesh face_selected uv_selected n (some f)
      (processFace
        (elemSubgroups mesh face_selected uv_selected use_winding)
        uv_selected mesh n f st) ∧
      IslandStepOK n st
        (processFace
          (elemSubgroups mesh face_selected uv_selected use_winding)
          uv_selected mesh n f st) ∧
      islandFaceDone mesh uv_selected
        (processFace
          (elemSubgroups mesh face_selected uv_selected use_winding)
          uv_selected mesh n f st).ei n f := by
  have h := processCorner_fold_spec mesh face_selected uv_selected
    use_winding hnd n f hf hfok
    (List.range (faceAt mesh f).loops.length) st hinv hfn
  refine ⟨h.1, h.2.1, ?_⟩
  intro j hj
  exact h.2.2 j (List.mem_range.mpr hj.1) hj

/-- Once the popped face is fully assigned, the exception can be
dropped. -/
theorem islandInvE_unexcept (mesh : List UVFace)
    (face_selected uv_selected : Bool) (n f : ℕ) (st : IslandState)
    (hinv : islandInvE mesh face_selected uv_selected n (some f) st)
    (hdone : islandFaceDone mesh uv_selected st.ei n f) :
    islandInvE mesh face_selected uv_selected n none st := by
  obtain ⟨hlen, hS1, hS2, hS3, hS4, hS6⟩ := hinv
  refine ⟨hlen, hS1, ?_, hS3, hS4, hS6⟩
  intro f' hf' _hex
  by_cases hff : f' = f
  · subst hff
    exact Or.inr hdone
  · exact hS2 f' hf' (by intro hh; exact hff (Option.some.inj hh))

/-- Running the flood loop with enough fuel empties the stack while
keeping the invariant; the whole run is a valid step. -/
theorem floodLoop_run (mesh : List UVFace)
    (face_selected uv_selected use_winding : Bool)
    (hnd : ∀ fc ∈ mesh, ((fc.loops).map UVLoop.v).Nodup) (n : ℕ) :
    ∀ (fuel : ℕ) (st : IslandState),
      islandInvE mesh face_selected uv_selected n none st →
      st.stack.length + 2 * st.fi.count none < fuel →
      islandInvE mesh face_selected uv_selected n none
        (floodLoop
          (elemSubgroups mesh face_selected uv_selected use_winding)
          uv_selected mesh n fuel st) ∧
        (floodLoop
          (elemSubgroups mesh face_selected uv_selected use_winding)
          uv_selected mesh n fuel st).stack = [] ∧
        IslandStepOK n st
          (floodLoop
            (elemSubgroups mesh face_selected uv_selected use_winding)
            uv_selected mesh n fuel st)
  | 0, st, _, hfuel => absurd hfuel (Nat.not_lt_zero _)
  | fuel + 1, st, hinv, hfuel => by
      rw [floodLoop]
      cases hstk : st.stack with
      | nil =>
          rw [hstk]
          exact ⟨hinv, rfl, IslandStepOK.rfl n st⟩
      | cons fh rest =>
          dsimp only
          obtain ⟨hlen, hS1, hS2, hS3, hS4, hS6⟩ := hinv
          have hfh := hS1 fh (by rw [hstk]; exact List.mem_cons_self _ _)
          have hinv1 : islandInvE mesh face_selected uv_selected n (some fh)
              { st with stack := rest } := by
            refine ⟨hlen, ?_, ?_, hS3, hS4, hS6⟩
            · intro f' hf'
              exact hS1 f' (by rw [hstk]; exact List.mem_cons_of_mem _ hf')
            · intro f' hf' hex
              rcases hS2 f' hf' (by intro hh; cases hh) with h1 | h1
              · rw [hstk] at h1
                rcases List.mem_cons.mp h1 with h2 | h2
                · exact absurd (by rw [h2]) hex
                · exact Or.inl h2
              · exact Or.inr h1
          have hpf := processFace_spec mesh face_selected uv_selected
            use_winding hnd n fh hfh.2.1 hfh.2.2 { st with stack := rest }
            hinv1 hfh.1
          have hinv2 := islandInvE_unexcept mesh face_selected uv_selected
            n fh _ hpf.1 hpf.2.2
          have hmeas : (processFace
              (elemSubgroups mesh face_selected uv_selected use_winding)
              uv_selected mesh n fh { st with stack := rest }).stack.length +
              2 * (processFace
                (elemSubgroups mesh face_selected uv_selected use_winding)
                uv_selected mesh n fh
                { st with stack := rest }).fi.count none < fuel := by
            have ha := hpf.2.1.meas
            have hb := hpf.2.1.meas_cn
            have hc : st.stack.length = rest.length + 1 := by
              rw [hstk]; rfl
            simp only at ha hb
            omega
          have hrec := floodLoop_run mesh face_selected uv_selected
            use_winding hnd n fuel _ hinv2 hmeas
          have hpop : IslandStepOK n st { st with stack := rest } := by
            refine ⟨fun g k h => h, fun e h => h, fun e h => h, Eq.refl _,
              ?_, Nat.le_refl _⟩
            show rest.length + st.fi.count none ≤
              st.stack.length + st.fi.count none
            rw [hstk, List.length_cons]
            omega
          exact ⟨hrec.1, hrec.2.1, (hpop.comp hpf.2.1).comp hrec.2.2⟩

/-- One outer-scan step: keeps the between-islands invariant, leaves the
scanned element assigned, and never unassigns an element. -/
theorem islandScanStep_spec (mesh : List UVFace)
    (face_selected uv_selected use_winding : Bool)
    (hnd : ∀ fc ∈ mesh, ((fc.loops).map UVLoop.v).Nodup)
    (p : ℕ × IslandState) (e : UvElement)
    (hout : islandOuterInv mesh face_selected uv_selected p)
    (he : e ∈ elemBuf mesh face_selected uv_selected) :
    islandOuterInv mesh face_selected uv_selected
      (islandScanStep
        (elemSubgroups mesh face_selected uv_selected use_winding)
        uv_selected mesh p e) ∧
      (((islandScanStep
        (elemSubgroups mesh face_selected uv_selected use_winding)
        uv_selected mesh p e).2.ei e).isSome = true) ∧
      (∀ e', ((p.2.ei e').isSome = true) →
        ((islandScanStep
          (elemSubgroups mesh face_selected uv_selected use_winding)
          uv_selected mesh p e).2.ei e').isSome = true) := by
  obtain ⟨hstk, hlen, hfi, hei⟩ := hout
  rcases (mem_elemBuf _ _ _ _).mp he with ⟨hef, heok, hjl, hlok⟩
  have heta : (⟨e.faceIdx, e.loopIdx⟩ : UvElement) = e := rfl
  rw [islandScanStep]
  by_cases hc : p.2.ei e = none
  · rw [if_pos hc]
    dsimp only
    have hface_none : p.2.fi.getD e.faceIdx none = none := by
      cases hfk : p.2.fi.getD e.faceIdx none with
      | none => rfl
      | some k =>
          exfalso
          have hdone := (hfi e.faceIdx k hfk).2.2.2
          have := hdone e.loopIdx ⟨hjl, hlok⟩
          rw [heta, hc] at this
          cases this
    have hflt : e.faceIdx < p.2.fi.length := by rw [hlen]; exact hef
    have hinv0 : islandInvE mesh face_selected uv_selected p.1 none
        ⟨setIsland p.2.ei e p.1, p.2.fi.set e.faceIdx (some p.1),
          [e.faceIdx]⟩ := by
      refine ⟨?_, ?_, ?_, ?_, ?_, ?_⟩
      · show (p.2.fi.set e.faceIdx (some p.1)).length = mesh.length
        rw [List.length_set]; exact hlen
      · intro f hfm
        rcases List.mem_cons.mp hfm with h1 | h1
        · subst h1
          exact ⟨getD_set_self _ _ hflt, hef, heok⟩
        · cases h1
      · intro f hfk _
        by_cases hfe : e.faceIdx = f
        · exact Or.inl (by rw [hfe]; exact List.mem_cons_self _ _)
        · exfalso
          show False
          rw [show (⟨setIsland p.2.ei e p.1,
              p.2.fi.set e.faceIdx (some p.1), [e.faceIdx]⟩ :
              IslandState).fi = p.2.fi.set e.faceIdx (some p.1) from rfl]
            at hfk
          rw [getD_set_ne _ _ hfe] at hfk
          have := (hfi f p.1 hfk).1
          omega
      · intro f k hfk hklt
        have hfe : e.faceIdx ≠ f := by
          intro hh
          rw [← hh] at hfk
          show False
          rw [show (⟨setIsland p.2.ei e p.1,
              p.2.fi.set e.faceIdx (some p.1), [e.faceIdx]⟩ :
              IslandState).fi = p.2.fi.set e.faceIdx (some p.1) from rfl]
            at hfk
          rw [getD_set_self _ _ hflt] at hfk
          have := Option.some.inj hfk
          omega
        rw [show (⟨setIsland p.2.ei e p.1,
            p.2.fi.set e.faceIdx (some p.1), [e.faceIdx]⟩ :
            IslandState).fi = p.2.fi.set e.faceIdx (some p.1) from rfl]
          at hfk
        rw [getD_set_ne _ _ hfe] at hfk
        have hdone := (hfi f k hfk).2.2.2
        intro j' hj'
        have hne : (⟨f, j'⟩ : UvElement) ≠ e := by
          intro hh
          have := congrArg UvElement.faceIdx hh
          exact hfe (by rw [← this])
        show setIsland p.2.ei e p.1 ⟨f, j'⟩ = some k
        rw [setIsland_ne _ _ _ _ hne]
        exact hdone j' hj'
      · intro e' k he'
        have he2 : setIsland p.2.ei e p.1 e' = some k := he'
        by_cases hpe : e' = e
        · subst hpe
          rw [setIsland_self] at he2
          have := Option.some.inj he2
          subst this
          exact ⟨Nat.le_refl _, getD_set_self _ _ hflt, he⟩
        · rw [setIsland_ne _ _ _ _ hpe] at he2
          rcases hei e' k he2 with ⟨h1, h2, h3⟩
          refine ⟨Nat.le_of_lt h1, ?_, h3⟩
          have hfe : e.faceIdx ≠ e'.faceIdx := by
            intro hh
            rw [← hh, hface_none] at h2
            cases h2
          show (p.2.fi.set e.faceIdx (some p.1)).getD e'.faceIdx none =
            some k
          rw [getD_set_ne _ _ hfe]
          exact h2
      · intro f k hfk
        by_cases hfe : e.faceIdx = f
        · subst hfe
          rw [show (⟨setIsland p.2.ei e p.1,
              p.2.fi.set e.faceIdx (some p.1), [e.faceIdx]⟩ :
              IslandState).fi = p.2.fi.set e.faceIdx (some p.1) from rfl]
            at hfk
          rw [getD_set_self _ _ hflt] at hfk
          have := Option.some.inj hfk
          subst this
          exact ⟨Nat.le_refl _, hef, heok⟩
        · rw [show (⟨setIsland p.2.ei e p.1,
              p.2.fi.set e.faceIdx (some p.1), [e.faceIdx]⟩ :
              IslandState).fi = p.2.fi.set e.faceIdx (some p.1) from rfl]
            at hfk
          rw [getD_set_ne _ _ hfe] at hfk
          rcases hfi f k hfk with ⟨h1, h2, h3, -⟩
          exact ⟨Nat.le_of_lt h1, h2, h3⟩
    have hcn : (p.2.fi.set e.faceIdx (some p.1)).count none ≤ mesh.length := by
      have h1 : (p.2.fi.set e.faceIdx (some p.1)).count none ≤
          (p.2.fi.set e.faceIdx (some p.1)).length :=
        List.count_le_length _ _
      rwa [List.length_set, hlen] at h1
    have hfuel : (⟨setIsland p.2.ei e p.1,
        p.2.fi.set e.faceIdx (some p.1), [e.faceIdx]⟩ :
        IslandState).stack.length +
        2 * (⟨setIsland p.2.ei e p.1, p.2.fi.set e.faceIdx (some p.1),
          [e.faceIdx]⟩ : IslandState).fi.count none <
        floodFuel mesh.length := by
      show 1 + 2 * (p.2.fi.set e.faceIdx (some p.1)).count none <
        2 * mesh.length + 2
      omega
    have hflood := floodLoop_run mesh face_selected uv_selected use_winding
      hnd p.1 (floodFuel mesh.length)
      ⟨setIsland p.2.ei e p.1, p.2.fi.set e.faceIdx (some p.1),
        [e.faceIdx]⟩ hinv0 hfuel
    obtain ⟨hinv1, hstk1, hstep1⟩ := hflood
    obtain ⟨hlen1, hS1', hS2', hS3', hS4', hS6'⟩ := hinv1
    refine ⟨⟨hstk1, ?_, ?_, ?_⟩, ?_, ?_⟩
    · exact hlen1
    · intro f k hfk
      rcases hS6' f k hfk with ⟨h1, h2, h3⟩
      refine ⟨Nat.lt_succ_of_le h1, h2, h3, ?_⟩
      rcases Nat.lt_or_ge k p.1 with hk | hk
      · exact hS3' f k hfk hk
      · have hkp : k = p.1 := Nat.le_antisymm h1 hk
        subst hkp
        rcases hS2' f hfk (by intro hh; cases hh) with h4 | h4
        · rw [hstk1] at h4
          cases h4
        · exact h4
    · intro e' k he'
      rcases hS4' e' k he' with ⟨h1, h2, h3⟩
      exact ⟨Nat.lt_succ_of_le h1, h2, h3⟩
    · have := hstep1.mono_n e (setIsland_self _ _ _)
      rw [this]
      rfl
    · intro e' he'
      apply hstep1.mono_some
      show (setIsland p.2.ei e p.1 e').isSome = true
      by_cases hpe : e' = e
      · subst hpe
        rw [setIsland_self]
        rfl
      · rw [setIsland_ne _ _ _ _ hpe]
        exact he'
  · rw [if_neg hc]
    refine ⟨⟨hstk, hlen, hfi, hei⟩, ?_, fun e' h => h⟩
    cases hee : p.2.ei e with
    | none => exact absurd hee hc
    | some k => rfl

/-- The outer scan over buffer elements: keeps the invariant and leaves
every scanned element assigned. -/
theorem islandScan_fold_spec (mesh : List UVFace)
    (face_selected uv_selected use_winding : Bool)
    (hnd : ∀ fc ∈ mesh, ((fc.loops).map UVLoop.v).Nodup) :
    ∀ (ll : List UvElement) (p : ℕ × IslandState),
      islandOuterInv mesh face_selected uv_selected p →
      (∀ e ∈ ll, e ∈ elemBuf mesh face_selected uv_selected) →
      islandOuterInv mesh face_selected uv_selected
        (ll.foldl (islandScanStep
          (elemSubgroups mesh face_selected uv_selected use_winding)
          uv_selected mesh) p) ∧
        (∀ e ∈ ll, (((ll.foldl (islandScanStep
          (elemSubgroups mesh face_selected uv_selected use_winding)
          uv_selected mesh) p).2.ei e).isSome = true)) ∧
        (∀ e', ((p.2.ei e').isSome = true) →
          (((ll.foldl (islandScanStep
            (elemSubgroups mesh face_selected uv_selected use_winding)
            uv_selected mesh) p).2.ei e').isSome = true))
  | [], p, hout, _ =>
      ⟨hout, fun e he => absurd he (List.not_mem_nil e), fun e' h => h⟩
  | e :: rest, p, hout, hin => by
      rw [List.foldl_cons]
      have h1 := islandScanStep_spec mesh face_selected uv_selected
        use_winding hnd p e hout (hin e (List.mem_cons_self _ _))
      have h2 := islandScan_fold_spec mesh face_selected uv_selected
        use_winding hnd rest _ h1.1
        (fun e' he' => hin e' (List.mem_cons_of_mem _ he'))
      refine ⟨h2.1, ?_, ?_⟩
      · intro e' he'
        rcases List.mem_cons.mp he' with hh | hh
        · subst hh
          exact h2.2.2 e' h1.2.1
        · exact h2.2.1 e' hh
      · intro e' h
        exact h2.2.2 e' (h1.2.2 e' h)

/-- C5: after the island pass, the island ids partition the eligible
corners: every created element carries an id, only created elements carry
ids, each element carries exactly one id, and two elements of the same
face always carry the same id (simple faces assumed: no vertex repeats
within one face, the mesh data-model invariant). -/
theorem c5_island_partition (mesh : List UVFace)
    (face_selected uv_selected use_winding : Bool)
    (hnd : ∀ fc ∈ mesh, ((fc.loops).map UVLoop.v).Nodup) :
    (∀ e ∈ elemBuf mesh face_selected uv_selected,
      (islandAssignment mesh face_selected uv_selected use_winding e).isSome
        = true) ∧
      (∀ e k, islandAssignment mesh face_selected uv_selected use_winding e
        = some k → e ∈ elemBuf mesh face_selected uv_selected) ∧
      (∀ e k1 k2,
        islandAssignment mesh face_selected uv_selected use_winding e =
          some k1 →
        islandAssignment mesh face_selected uv_selected use_winding e =
          some k2 → k1 = k2) ∧
      (∀ e1 e2, e1 ∈ elemBuf mesh face_selected uv_selected →
        e2 ∈ elemBuf mesh face_selected uv_selected →
        e1.faceIdx = e2.faceIdx →
        islandAssignment mesh face_selected uv_selected use_winding e1 =
          islandAssignment mesh face_selected uv_selected use_winding e2) := by
  have hout0 : islandOuterInv mesh face_selected uv_selected
      (0, ⟨fun _ => none, List.replicate mesh.length none, []⟩) := by
    refine ⟨rfl, List.length_replicate _ _, ?_, ?_⟩
    · intro f k hfk
      exfalso
      have hrep : (List.replicate mesh.length (none : Option ℕ)).getD f
          none = none := by
        rw [List.getD_eq_getElem?_getD, List.getElem?_replicate]
        by_cases hfl : f < mesh.length
        · rw [if_pos hfl]; rfl
        · rw [if_neg hfl]; rfl
      rw [hrep] at hfk
      cases hfk
    · intro e k he
      cases he
  have hfold := islandScan_fold_spec mesh face_selected uv_selected
    use_winding hnd (elemBuf mesh face_selected uv_selected)
    (0, ⟨fun _ => none, List.replicate mesh.length none, []⟩) hout0
    (fun e he => he)
  have hA : islandAssignment mesh face_selected uv_selected use_winding =
      ((elemBuf mesh face_selected uv_selected).foldl
        (islandScanStep
          (elemSubgroups mesh face_selected uv_selected use_winding)
          uv_selected mesh)
        (0, ⟨fun _ => none, List.replicate mesh.length none, []⟩)).2.ei :=
    rfl
  obtain ⟨⟨-, -, hfi, hei⟩, htot, -⟩ := hfold
  refine ⟨?_, ?_, ?_, ?_⟩
  · intro e he
    rw [hA]
    exact htot e he
  · intro e k he
    rw [hA] at he
    exact (hei e k he).2.2
  · intro e k1 k2 h1 h2
    rw [h1] at h2
    exact Option.some.inj h2
  · intro e1 e2 he1 he2 hface
    have ht1 := htot e1 he1
    have ht2 := htot e2 he2
    rw [hA]
    cases hk1 : ((elemBuf mesh face_selected uv_selected).foldl
        (islandScanStep
          (elemSubgroups mesh face_selected uv_selected use_winding)
          uv_selected mesh)
        (0, ⟨fun _ => none, List.replicate mesh.length none, []⟩)).2.ei e1
      with
    | none => rw [hk1] at ht1; cases ht1
    | some k1 =>
        cases hk2 : ((elemBuf mesh face_selected uv_selected).foldl
            (islandScanStep
              (elemSubgroups mesh face_selected uv_selected use_winding)
              uv_selected mesh)
            (0, ⟨fun _ => none, List.replicate mesh.length none, []⟩)).2.ei
            e2 with
        | none => rw [hk2] at ht2; cases ht2
        | some k2 =>
            have hb1 := (hei e1 k1 hk1).2.1
            have hb2 := (hei e2 k2 hk2).2.1
            rw [hface] at hb1
            rw [hb1] at hb2
            rw [Option.some.inj hb2]

/-- Witness for C5 at a one-triangle mesh: the corner elements are
assigned, and two corners of the one face share their island id. -/
theorem c5_witness :
    (islandAssignment
        [UVFace.mk true [⟨0, (⟨0,1⟩, ⟨0,1⟩), true⟩,
          ⟨1, (⟨1,1⟩, ⟨0,1⟩), true⟩, ⟨2, (⟨0,1⟩, ⟨1,1⟩), true⟩]]
        false false false ⟨0, 0⟩).isSome = true ∧
      islandAssignment
        [UVFace.mk true [⟨0, (⟨0,1⟩, ⟨0,1⟩), true⟩,
          ⟨1, (⟨1,1⟩, ⟨0,1⟩), true⟩, ⟨2, (⟨0,1⟩, ⟨1,1⟩), true⟩]]
        false false false ⟨0, 0⟩ =
      islandAssignment
        [UVFace.mk true [⟨0, (⟨0,1⟩, ⟨0,1⟩), true⟩,
          ⟨1, (⟨1,1⟩, ⟨0,1⟩), true⟩, ⟨2, (⟨0,1⟩, ⟨1,1⟩), true⟩]]
        false false false ⟨0, 1⟩ :=
  ⟨(c5_island_partition
      [UVFace.mk true [⟨0, (⟨0,1⟩, ⟨0,1⟩), true⟩,
        ⟨1, (⟨1,1⟩, ⟨0,1⟩), true⟩, ⟨2, (⟨0,1⟩, ⟨1,1⟩), true⟩]]
      false false false (by decide)).1 ⟨0, 0⟩ (by decide),
    (c5_island_partition
      [UVFace.mk true [⟨0, (⟨0,1⟩, ⟨0,1⟩), true⟩,
        ⟨1, (⟨1,1⟩, ⟨0,1⟩), true⟩, ⟨2, (⟨0,1⟩, ⟨1,1⟩), true⟩]]
      false false false (by decide)).2.2.2 ⟨0, 0⟩ ⟨0, 1⟩ (by decide)
      (by decide) rfl⟩

/-- Witness for C8: a two-vertex mesh whose table mirrors 0 and 1 into
each other, with one edge and one (degenerate two-vertex) face; both
queries succeed and the characterisations hold. -/
theorem c8_witness :
    (EDBM_verts_mirror_get_edge [1, 0] 2 [(0, 1)] (0, 1)).isSome = true ∧
      (EDBM_verts_mirror_get_face [1, 0] 2 [[0, 1]] [1, 0]).isSome = true := by
  have h := c8_mirror_edge_face [1, 0] 2 [(0, 1)] [[0, 1]] (0, 1) [1, 0]
  constructor
  · exact h.1.mpr ⟨1, 0, by decide, by decide, (0, 1), by decide,
      Or.inr ⟨rfl, rfl⟩⟩
  · refine h.2.mpr ⟨[0, 1], ?_, [0, 1], by decide, by decide⟩
    exact List.Forall₂.cons (by decide) (List.Forall₂.cons (by decide)
      List.Forall₂.nil)

end Blender
